import Mathlib

/-!
Verification of the `algoseek-connector` object-key subsystem.

The development shallowly embeds the Python code of
`algoseek_connector/utils.py` and `algoseek_connector/s3/client.py`
(dates, the `yyyymmdd` render/parse pair, futures trading codes, the
path-template helpers), together with a model of the
`algoseek_connector.s3.downloader` module.  That module is not part of the
available sources (only its tests and callers are), so its definitions are
modelled from the specification and marked as such.

Strings are handled as `List Char` internally (a Python `str` is a sequence
of characters) with `String` wrappers at the boundaries that mirror the
source signatures.
-/

deriving instance DecidableEq for Except

namespace AlgoseekConnector

/-! ## Calendar dates

Model of Python `datetime.date`: a (year, month, day) triple, valid when
`1 ≤ year ≤ 9999`, `1 ≤ month ≤ 12` and the day fits the month (with the
Gregorian leap rule).  Comparison of `datetime.date` objects is
lexicographic on the triple. -/

structure Date where
  year : Nat
  month : Nat
  day : Nat
  deriving DecidableEq, Repr

def isLeap (y : Nat) : Prop :=
  y % 4 = 0 ∧ (y % 100 ≠ 0 ∨ y % 400 = 0)

instance (y : Nat) : Decidable (isLeap y) := by
  unfold isLeap; infer_instance

def daysInMonth (y m : Nat) : Nat :=
  if m = 2 then (if isLeap y then 29 else 28)
  else if m = 4 ∨ m = 6 ∨ m = 9 ∨ m = 11 then 30
  else 31

/-- Total days in months `1..m` of year `y`. -/
def daysUpto (y : Nat) : Nat → Nat
  | 0 => 0
  | m + 1 => daysUpto y m + daysInMonth y (m + 1)

def daysInYear (y : Nat) : Nat := daysUpto y 12

/-- Days in all years strictly before `y` (arbitrary common origin). -/
def daysBeforeYear : Nat → Nat
  | 0 => 0
  | y + 1 => daysBeforeYear y + daysInYear y

/-- Absolute day number of a date; consecutive valid dates get consecutive
numbers. -/
def toOrdinal (d : Date) : Nat :=
  daysBeforeYear d.year + daysUpto d.year (d.month - 1) + (d.day - 1)

/-- Python `datetime.date` validity: what `datetime.date(y, m, d)` accepts. -/
def Valid (d : Date) : Prop :=
  1 ≤ d.year ∧ d.year ≤ 9999 ∧ 1 ≤ d.month ∧ d.month ≤ 12 ∧
    1 ≤ d.day ∧ d.day ≤ daysInMonth d.year d.month

instance (d : Date) : Decidable (Valid d) := by
  unfold Valid; infer_instance

/-- Python date comparison `a <= b` (lexicographic on the triple). -/
def dateLe (a b : Date) : Prop :=
  a.year < b.year ∨ (a.year = b.year ∧
    (a.month < b.month ∨ (a.month = b.month ∧ a.day ≤ b.day)))

/-- Python date comparison `a < b`. -/
def dateLt (a b : Date) : Prop :=
  a.year < b.year ∨ (a.year = b.year ∧
    (a.month < b.month ∨ (a.month = b.month ∧ a.day < b.day)))

instance (a b : Date) : Decidable (dateLe a b) := by
  unfold dateLe; infer_instance

instance (a b : Date) : Decidable (dateLt a b) := by
  unfold dateLt; infer_instance

/-- Python `d + timedelta(days=1)` on valid dates. -/
def nextDate (d : Date) : Date :=
  if d.day < daysInMonth d.year d.month then ⟨d.year, d.month, d.day + 1⟩
  else if d.month < 12 then ⟨d.year, d.month + 1, 1⟩
  else ⟨d.year + 1, 1, 1⟩

/-! Basic arithmetic facts about the day numbering. -/

theorem daysInMonth_pos (y m : Nat) : 1 ≤ daysInMonth y m := by
  unfold daysInMonth
  split_ifs <;> omega

theorem daysInMonth_le (y m : Nat) : daysInMonth y m ≤ 31 := by
  unfold daysInMonth
  split_ifs <;> omega

theorem daysUpto_sub_one (y m : Nat) (h : 1 ≤ m) :
    daysUpto y m = daysUpto y (m - 1) + daysInMonth y m := by
  cases m with
  | zero => omega
  | succ m0 => simp [daysUpto]

theorem daysUpto_le_daysUpto (y : Nat) {m k : Nat} (h : m ≤ k) :
    daysUpto y m ≤ daysUpto y k := by
  obtain ⟨t, rfl⟩ := Nat.exists_eq_add_of_le h
  induction t with
  | zero => simp
  | succ n ih =>
    have hstep : daysUpto y (m + (n + 1))
        = daysUpto y (m + n) + daysInMonth y (m + n + 1) := rfl
    omega

theorem daysBeforeYear_le_daysBeforeYear {y z : Nat} (h : y ≤ z) :
    daysBeforeYear y ≤ daysBeforeYear z := by
  obtain ⟨t, rfl⟩ := Nat.exists_eq_add_of_le h
  induction t with
  | zero => simp
  | succ n ih =>
    have hstep : daysBeforeYear (y + (n + 1))
        = daysBeforeYear (y + n) + daysInYear (y + n) := rfl
    omega

theorem toOrdinal_mk (y m d : Nat) :
    toOrdinal ⟨y, m, d⟩ = daysBeforeYear y + daysUpto y (m - 1) + (d - 1) := rfl

/-- A valid date's ordinal stays below the start of the next year. -/
theorem toOrdinal_lt_next_year {d : Date} (h : Valid d) :
    toOrdinal d < daysBeforeYear (d.year + 1) := by
  obtain ⟨y, m, dd⟩ := d
  obtain ⟨hy1, hy2, hm1, hm2, hd1, hd2⟩ := h
  simp only at hy1 hy2 hm1 hm2 hd1 hd2
  dsimp only
  rw [toOrdinal_mk]
  have hstep : daysUpto y m = daysUpto y (m - 1) + daysInMonth y m :=
    daysUpto_sub_one y m hm1
  have hmono : daysUpto y m ≤ daysUpto y 12 := daysUpto_le_daysUpto y hm2
  have hby : daysBeforeYear (y + 1) = daysBeforeYear y + daysInYear y := rfl
  unfold daysInYear at hby
  omega

/-- Strict date order implies strict ordinal order (both dates valid). -/
theorem toOrdinal_lt_of_dateLt {a b : Date} (ha : Valid a) (hb : Valid b)
    (h : dateLt a b) : toOrdinal a < toOrdinal b := by
  obtain ⟨ya, ma, da⟩ := a
  obtain ⟨yb, mb, db⟩ := b
  have hlt := toOrdinal_lt_next_year ha
  obtain ⟨hay1, hay2, ham1, ham2, had1, had2⟩ := ha
  obtain ⟨hby1, hby2, hbm1, hbm2, hbd1, hbd2⟩ := hb
  simp only at hay1 hay2 ham1 ham2 had1 had2 hby1 hby2 hbm1 hbm2 hbd1 hbd2 hlt
  rw [toOrdinal_mk] at hlt ⊢
  rw [toOrdinal_mk]
  rcases h with hy | ⟨hy, hm | ⟨hm, hd⟩⟩
  · simp only at hy
    have h2 : daysBeforeYear (ya + 1) ≤ daysBeforeYear yb :=
      daysBeforeYear_le_daysBeforeYear (by omega)
    omega
  · simp only at hy hm
    subst hy
    have hstep : daysUpto ya ma = daysUpto ya (ma - 1) + daysInMonth ya ma :=
      daysUpto_sub_one ya ma ham1
    have hmono : daysUpto ya ma ≤ daysUpto ya (mb - 1) :=
      daysUpto_le_daysUpto ya (by omega)
    omega
  · simp only at hy hm hd
    subst hy; subst hm
    omega

theorem dateLt_of_not_dateLe {a b : Date} (h : ¬ dateLe a b) : dateLt b a := by
  unfold dateLe at h
  unfold dateLt
  omega

theorem dateLe_of_not_dateLt {a b : Date} (h : ¬ dateLt a b) : dateLe b a := by
  unfold dateLt at h
  unfold dateLe
  omega

theorem toOrdinal_le_of_dateLe {a b : Date} (ha : Valid a) (hb : Valid b)
    (h : dateLe a b) : toOrdinal a ≤ toOrdinal b := by
  by_cases hlt : dateLt a b
  · exact Nat.le_of_lt (toOrdinal_lt_of_dateLt ha hb hlt)
  · have hab : a = b := by
      unfold dateLe at h
      unfold dateLt at hlt
      obtain ⟨ya, ma, da⟩ := a
      obtain ⟨yb, mb, db⟩ := b
      simp only at h hlt
      simp only [Date.mk.injEq]
      omega
    simp [hab]

theorem dateLe_of_toOrdinal_le {a b : Date} (ha : Valid a) (hb : Valid b)
    (h : toOrdinal a ≤ toOrdinal b) : dateLe a b := by
  by_cases hle : dateLe a b
  · exact hle
  · have := toOrdinal_lt_of_dateLt hb ha (dateLt_of_not_dateLe hle)
    omega

theorem eq_of_toOrdinal_eq {a b : Date} (ha : Valid a) (hb : Valid b)
    (h : toOrdinal a = toOrdinal b) : a = b := by
  have h1 : dateLe a b := dateLe_of_toOrdinal_le ha hb (by omega)
  have h2 : dateLe b a := dateLe_of_toOrdinal_le hb ha (by omega)
  unfold dateLe at h1 h2
  obtain ⟨ya, ma, da⟩ := a
  obtain ⟨yb, mb, db⟩ := b
  simp only at h1 h2
  simp only [Date.mk.injEq]
  omega

/-- Stepping one day forward adds one to the ordinal. -/
theorem toOrdinal_nextDate {d : Date} (h : Valid d) :
    toOrdinal (nextDate d) = toOrdinal d + 1 := by
  obtain ⟨y, m, dd⟩ := d
  obtain ⟨hy1, hy2, hm1, hm2, hd1, hd2⟩ := h
  simp only at hy1 hy2 hm1 hm2 hd1 hd2
  unfold nextDate
  simp only
  split_ifs with h1 h2
  · rw [toOrdinal_mk, toOrdinal_mk]
    omega
  · -- month rollover
    rw [toOrdinal_mk, toOrdinal_mk]
    have hstep : daysUpto y m = daysUpto y (m - 1) + daysInMonth y m :=
      daysUpto_sub_one y m hm1
    have hms : m + 1 - 1 = m := rfl
    rw [hms]
    omega
  · -- year rollover: month = 12, day = daysInMonth y 12
    have hm : m = 12 := by omega
    subst hm
    rw [toOrdinal_mk, toOrdinal_mk]
    have hby : daysBeforeYear (y + 1) = daysBeforeYear y + daysInYear y := rfl
    have h12 : daysInYear y = daysUpto y 11 + daysInMonth y 12 := rfl
    have h0 : daysUpto (y + 1) 0 = 0 := rfl
    simp only [show (12 : Nat) - 1 = 11 from rfl, show (1 : Nat) - 1 = 0 from rfl]
    omega

theorem valid_nextDate_or_stop {d : Date} (h : Valid d) :
    Valid (nextDate d) ∨ (nextDate d).year = 10000 := by
  obtain ⟨y, m, dd⟩ := d
  obtain ⟨hy1, hy2, hm1, hm2, hd1, hd2⟩ := h
  simp only at hy1 hy2 hm1 hm2 hd1 hd2
  unfold nextDate
  dsimp only
  split_ifs with h1 h2
  · left
    unfold Valid
    dsimp only
    omega
  · left
    have := daysInMonth_pos y (m + 1)
    unfold Valid
    dsimp only
    omega
  · rcases Nat.lt_or_ge y 9999 with hlt | hge
    · left
      have := daysInMonth_pos (y + 1) 1
      unfold Valid
      dsimp only
      omega
    · right
      dsimp only
      omega

/-! ## `utils.iterate_date_range`

The Python generator yields `current` while `current <= end`, stepping one
day at a time.  The Lean version carries enough fuel for the whole closed
interval; on the valid dates Python can pass in, it produces the same
sequence. -/

def iterateGo : Nat → Date → Date → List Date
  | 0, _, _ => []
  | fuel + 1, current, stop =>
    if dateLe current stop then current :: iterateGo fuel (nextDate current) stop
    else []

/-- The `utils.iterate_date_range(start, end)` generator, materialized as a list.  The
fuel `366 * (stop.year + 1 - start.year)` over-approximates the number of
loop iterations (proved below), so the guarded loop body is exactly
Python's. -/
def iterate_date_range (start stop : Date) : List Date :=
  iterateGo (366 * (stop.year + 1 - start.year)) start stop

theorem iterateGo_of_not_le {fuel : Nat} {current stop : Date}
    (h : ¬ dateLe current stop) : iterateGo fuel current stop = [] := by
  cases fuel with
  | zero => rfl
  | succ n => simp [iterateGo, h]

/-- Core characterization: with enough fuel the loop enumerates exactly the
ordinals `[toOrdinal current, toOrdinal stop]`, through valid dates. -/
theorem iterateGo_spec {stop : Date} (hvs : Valid stop) :
    ∀ (fuel : Nat) (current : Date), Valid current →
      toOrdinal stop + 1 - toOrdinal current ≤ fuel →
      (iterateGo fuel current stop).map toOrdinal
          = List.range' (toOrdinal current) (toOrdinal stop + 1 - toOrdinal current)
        ∧ ∀ x ∈ iterateGo fuel current stop, Valid x := by
  intro fuel
  induction fuel with
  | zero =>
    intro current _ hfuel
    have : toOrdinal stop + 1 - toOrdinal current = 0 := by omega
    simp [iterateGo, this]
  | succ n ih =>
    intro current hvc hfuel
    by_cases hle : dateLe current stop
    · have hord : toOrdinal current ≤ toOrdinal stop :=
        toOrdinal_le_of_dateLe hvc hvs hle
      have hcount : toOrdinal stop + 1 - toOrdinal current
          = (toOrdinal stop + 1 - (toOrdinal current + 1)) + 1 := by omega
      rcases valid_nextDate_or_stop hvc with hnv | hstopyear
      · -- the successor is a valid date: recurse
        obtain ⟨ihmap, ihvalid⟩ := ih (nextDate current) hnv
          (by rw [toOrdinal_nextDate hvc]; omega)
        rw [toOrdinal_nextDate hvc] at ihmap
        constructor
        · simp only [iterateGo, if_pos hle, List.map_cons, ihmap, hcount,
            List.range'_succ]
        · intro x hx
          simp only [iterateGo, if_pos hle, List.mem_cons] at hx
          rcases hx with rfl | hx
          · exact hvc
          · exact ihvalid x hx
      · -- nextDate current leaves the representable years: current = stop
        have hcurstop : current = stop := by
          obtain ⟨y, m, dd⟩ := current
          obtain ⟨hy1, hy2, hm1, hm2, hd1, hd2⟩ := hvc
          simp only at hy1 hy2 hm1 hm2 hd1 hd2
          unfold nextDate at hstopyear
          dsimp only at hstopyear
          split_ifs at hstopyear with h1 h2
          · simp only at hstopyear
            exact absurd hstopyear (by omega)
          · simp only at hstopyear
            exact absurd hstopyear (by omega)
          · simp only at hstopyear
            have hy : y = 9999 := by omega
            have hm : m = 12 := by omega
            have hdim : daysInMonth 9999 12 = 31 := by decide
            have hd : dd = 31 := by subst hy; subst hm; omega
            obtain ⟨ys, ms, ds⟩ := stop
            obtain ⟨hs1, hs2, hs3, hs4, hs5, hs6⟩ := hvs
            simp only at hs1 hs2 hs3 hs4 hs5 hs6
            unfold dateLe at hle
            simp only at hle
            have hdims : daysInMonth ys ms ≤ 31 := daysInMonth_le ys ms
            simp only [Date.mk.injEq]
            omega
        subst hcurstop
        have hnle : ¬ dateLe (nextDate current) current := by
          intro hcontra
          obtain ⟨y, m, dd⟩ := current
          unfold nextDate at hstopyear hcontra
          dsimp only at hstopyear hcontra
          obtain ⟨hy1, hy2, _, _, _, _⟩ := hvc
          simp only at hy1 hy2
          split_ifs at hstopyear with h1 h2
          · simp only at hstopyear
            omega
          · simp only at hstopyear
            omega
          · rw [if_neg h1, if_neg h2] at hcontra
            unfold dateLe at hcontra
            simp only at hcontra hstopyear
            omega
        constructor
        · have hzero : toOrdinal current + 1 - (toOrdinal current + 1) = 0 := by
            omega
          have hcount1 : toOrdinal current + 1 - toOrdinal current = 1 := by omega
          simp only [iterateGo, if_pos hle, iterateGo_of_not_le hnle,
            List.map_cons, List.map_nil, hcount1, List.range'_succ,
            List.range'_zero]
        · intro x hx
          simp only [iterateGo, if_pos hle, iterateGo_of_not_le hnle,
            List.mem_singleton] at hx
          subst hx
          exact hvc
    · have hord : toOrdinal stop < toOrdinal current :=
        toOrdinal_lt_of_dateLt hvs hvc (dateLt_of_not_dateLe hle)
      have : toOrdinal stop + 1 - toOrdinal current = 0 := by omega
      simp [iterateGo, hle, this]

theorem daysInYear_le_366 (y : Nat) : daysInYear y ≤ 366 := by
  have h2 : daysInMonth y 2 ≤ 29 := by
    unfold daysInMonth
    split_ifs <;> omega
  have h1 : daysInMonth y 1 = 31 := by unfold daysInMonth; norm_num
  have h3 : daysInMonth y 3 = 31 := by unfold daysInMonth; norm_num
  have h4 : daysInMonth y 4 = 30 := by unfold daysInMonth; norm_num
  have h5 : daysInMonth y 5 = 31 := by unfold daysInMonth; norm_num
  have h6 : daysInMonth y 6 = 30 := by unfold daysInMonth; norm_num
  have h7 : daysInMonth y 7 = 31 := by unfold daysInMonth; norm_num
  have h8 : daysInMonth y 8 = 31 := by unfold daysInMonth; norm_num
  have h9 : daysInMonth y 9 = 30 := by unfold daysInMonth; norm_num
  have h10 : daysInMonth y 10 = 31 := by unfold daysInMonth; norm_num
  have h11 : daysInMonth y 11 = 30 := by unfold daysInMonth; norm_num
  have h12 : daysInMonth y 12 = 31 := by unfold daysInMonth; norm_num
  have hshape : daysInYear y = daysUpto y 0 + daysInMonth y 1 + daysInMonth y 2
      + daysInMonth y 3 + daysInMonth y 4 + daysInMonth y 5 + daysInMonth y 6
      + daysInMonth y 7 + daysInMonth y 8 + daysInMonth y 9 + daysInMonth y 10
      + daysInMonth y 11 + daysInMonth y 12 := rfl
  have h0 : daysUpto y 0 = 0 := rfl
  omega

theorem daysBeforeYear_add_le (a : Nat) : ∀ k : Nat,
    daysBeforeYear (a + k) ≤ daysBeforeYear a + 366 * k := by
  intro k
  induction k with
  | zero => simp
  | succ n ih =>
    have hstep : daysBeforeYear (a + (n + 1))
        = daysBeforeYear (a + n) + daysInYear (a + n) := rfl
    have := daysInYear_le_366 (a + n)
    omega

/-- The chosen fuel dominates the iteration count of the date loop. -/
theorem iterate_fuel_ok {start stop : Date} (_hs : Valid start)
    (he : Valid stop) :
    toOrdinal stop + 1 - toOrdinal start
      ≤ 366 * (stop.year + 1 - start.year) := by
  have hestop : toOrdinal stop < daysBeforeYear (stop.year + 1) :=
    toOrdinal_lt_next_year he
  have hsge : daysBeforeYear start.year ≤ toOrdinal start := by
    unfold toOrdinal; omega
  rcases Nat.lt_or_ge stop.year start.year with hy | hy
  case inl =>
    have h1 : daysBeforeYear (stop.year + 1) ≤ daysBeforeYear start.year :=
      daysBeforeYear_le_daysBeforeYear (by omega)
    omega
  case inr =>
    have hadd := daysBeforeYear_add_le start.year (stop.year + 1 - start.year)
    have heq : start.year + (stop.year + 1 - start.year) = stop.year + 1 := by
      omega
    rw [heq] at hadd
    omega

theorem iterate_date_range_spec {start stop : Date} (hs : Valid start)
    (he : Valid stop) :
    (iterate_date_range start stop).map toOrdinal
        = List.range' (toOrdinal start) (toOrdinal stop + 1 - toOrdinal start)
      ∧ ∀ x ∈ iterate_date_range start stop, Valid x :=
  iterateGo_spec he _ start hs (iterate_fuel_ok hs he)

/-- An inverted range yields the empty sequence. -/
theorem iterate_date_range_empty {start stop : Date}
    (h : ¬ dateLe start stop) : iterate_date_range start stop = [] :=
  iterateGo_of_not_le h

/-! ## Decimal rendering (`strftime("%Y%m%d")`) and parsing
(`utils.yyyymmdd_str_to_date`). -/

/-- The character for a single decimal digit value. -/
def digitChar (n : Nat) : Char := Char.ofNat (48 + n)

/-- Decimal digits of `n`, most significant first; empty for `0`
(the callers always zero-pad). Fuel-based so that it reduces in the kernel. -/
def natDigitsAux : Nat → Nat → List Char
  | 0, _ => []
  | fuel + 1, n =>
    if n = 0 then []
    else natDigitsAux fuel (n / 10) ++ [digitChar (n % 10)]

def natDigits (n : Nat) : List Char := natDigitsAux n n

theorem natDigitsAux_fuel : ∀ {a b n : Nat}, n ≤ a → n ≤ b →
    natDigitsAux a n = natDigitsAux b n := by
  intro a
  induction a with
  | zero =>
    intro b n h1 h2
    have hn : n = 0 := by omega
    subst hn
    cases b with
    | zero => rfl
    | succ k => simp [natDigitsAux]
  | succ f1 ih =>
    intro b n h1 h2
    cases b with
    | zero =>
      have hn : n = 0 := by omega
      subst hn
      simp [natDigitsAux]
    | succ f2 =>
      by_cases hn : n = 0
      · simp [natDigitsAux, hn]
      · simp only [natDigitsAux, if_neg hn]
        rw [ih (n := n / 10) (b := f2) (by omega) (by omega)]

theorem natDigits_eq (n : Nat) (h : n ≠ 0) :
    natDigits n = natDigits (n / 10) ++ [digitChar (n % 10)] := by
  unfold natDigits
  cases n with
  | zero => omega
  | succ k =>
    simp only [natDigitsAux, if_neg h]
    rw [natDigitsAux_fuel (b := (k + 1) / 10) (n := (k + 1) / 10)
      (by omega) (Nat.le_refl _)]

theorem natDigits_single {n : Nat} (h : n ≤ 9) (h0 : n ≠ 0) :
    natDigits n = [digitChar n] := by
  rw [natDigits_eq n h0]
  have h1 : n / 10 = 0 := by omega
  have h2 : n % 10 = n := by omega
  rw [h1, h2]
  simp [natDigits, natDigitsAux]

theorem natDigits_two {n : Nat} (h1 : 10 ≤ n) (h2 : n ≤ 99) :
    natDigits n = [digitChar (n / 10), digitChar (n % 10)] := by
  rw [natDigits_eq n (by omega)]
  rw [natDigits_single (n := n / 10) (by omega) (by omega)]
  rfl

theorem natDigits_four {n : Nat} (h1 : 1000 ≤ n) (h2 : n ≤ 9999) :
    natDigits n = [digitChar (n / 1000), digitChar (n / 100 % 10),
      digitChar (n / 10 % 10), digitChar (n % 10)] := by
  rw [natDigits_eq n (by omega)]
  rw [natDigits_eq (n / 10) (by omega)]
  rw [natDigits_two (n := n / 10 / 10) (by omega) (by omega)]
  have e1 : n / 10 / 10 / 10 = n / 1000 := by omega
  have e2 : n / 10 / 10 % 10 = n / 100 % 10 := by omega
  have e3 : n / 10 % 10 = n / 10 % 10 := rfl
  rw [e1, e2]
  simp

/-- Left zero-padding to width `w`, as Python `%0wd` formatting does. -/
def padZeros (w : Nat) (s : List Char) : List Char :=
  List.replicate (w - s.length) '0' ++ s

theorem padZeros_of_length_eq {w : Nat} {s : List Char} (h : s.length = w) :
    padZeros w s = s := by
  unfold padZeros
  rw [h]
  simp

/-- Python `date.strftime("%Y%m%d")` as a character list: zero-padded 4-digit year,
2-digit month, 2-digit day. -/
def strftimeYyyymmdd (d : Date) : List Char :=
  padZeros 4 (natDigits d.year) ++ padZeros 2 (natDigits d.month)
    ++ padZeros 2 (natDigits d.day)

theorem padZeros_two_digits {n : Nat} (h : n ≤ 99) :
    padZeros 2 (natDigits n) = [digitChar (n / 10), digitChar (n % 10)] := by
  rcases Nat.lt_or_ge n 10 with hsmall | hbig
  · by_cases h0 : n = 0
    · subst h0
      decide
    · rw [natDigits_single (by omega) h0]
      have e1 : n / 10 = 0 := by omega
      have e2 : n % 10 = n := by omega
      rw [e1, e2]
      rfl
  · rw [natDigits_two hbig h]
    apply padZeros_of_length_eq
    rfl

theorem strftimeYyyymmdd_digits {d : Date} (hv : Valid d)
    (hy : 1000 ≤ d.year) :
    strftimeYyyymmdd d = [digitChar (d.year / 1000), digitChar (d.year / 100 % 10),
      digitChar (d.year / 10 % 10), digitChar (d.year % 10),
      digitChar (d.month / 10), digitChar (d.month % 10),
      digitChar (d.day / 10), digitChar (d.day % 10)] := by
  obtain ⟨hy1, hy2, hm1, hm2, hd1, hd2⟩ := hv
  have hdim : d.day ≤ 31 := le_trans hd2 (daysInMonth_le _ _)
  unfold strftimeYyyymmdd
  rw [natDigits_four hy hy2, padZeros_of_length_eq (by rfl),
    padZeros_two_digits (by omega), padZeros_two_digits (by omega)]
  rfl

theorem digitChar_toNat {n : Nat} (h : n ≤ 9) : (digitChar n).toNat = 48 + n := by
  interval_cases n <;> decide

theorem digitChar_inj {a b : Nat} (ha : a ≤ 9) (hb : b ≤ 9)
    (h : digitChar a = digitChar b) : a = b := by
  have := congrArg Char.toNat h
  rw [digitChar_toNat ha, digitChar_toNat hb] at this
  omega

theorem digitChar_isDigit {n : Nat} (h : n ≤ 9) : (digitChar n).isDigit := by
  interval_cases n <;> decide

/-- Rendering with `strftime("%Y%m%d")` is injective on valid dates with 4-digit years. -/
theorem strftimeYyyymmdd_inj {a b : Date} (ha : Valid a) (hb : Valid b)
    (hya : 1000 ≤ a.year) (hyb : 1000 ≤ b.year)
    (h : strftimeYyyymmdd a = strftimeYyyymmdd b) : a = b := by
  rw [strftimeYyyymmdd_digits ha hya, strftimeYyyymmdd_digits hb hyb] at h
  simp only [List.cons.injEq, and_true] at h
  obtain ⟨e1, e2, e3, e4, e5, e6, e7, e8⟩ := h
  obtain ⟨hya1, hya2, hma1, hma2, hda1, hda2⟩ := ha
  obtain ⟨hyb1, hyb2, hmb1, hmb2, hdb1, hdb2⟩ := hb
  have hdima : a.day ≤ 31 := le_trans hda2 (daysInMonth_le _ _)
  have hdimb : b.day ≤ 31 := le_trans hdb2 (daysInMonth_le _ _)
  have d1 := digitChar_inj (by omega) (by omega) e1
  have d2 := digitChar_inj (by omega) (by omega) e2
  have d3 := digitChar_inj (by omega) (by omega) e3
  have d4 := digitChar_inj (by omega) (by omega) e4
  have d5 := digitChar_inj (by omega) (by omega) e5
  have d6 := digitChar_inj (by omega) (by omega) e6
  have d7 := digitChar_inj (by omega) (by omega) e7
  have d8 := digitChar_inj (by omega) (by omega) e8
  obtain ⟨ya, ma, da⟩ := a
  obtain ⟨yb, mb, db⟩ := b
  simp only at d1 d2 d3 d4 d5 d6 d7 d8 hya hyb hya2 hyb2
  simp only [Date.mk.injEq]
  omega

/-- Numeric value of a decimal digit character. -/
def digitVal (c : Char) : Nat := c.toNat - 48

theorem digitVal_digitChar {n : Nat} (h : n ≤ 9) : digitVal (digitChar n) = n := by
  unfold digitVal
  rw [digitChar_toNat h]
  omega

/-- Model of `utils.yyyymmdd_str_to_date`: `re.fullmatch` against
`(20\d\x7b2\x7d)(\d\x7b2\x7d)(\d\x7b2\x7d)` — exactly eight characters, the
first two literally `2` and `0`, the rest decimal digits — then
`strptime("%Y%m%d")`, which validates the calendar date.  `none` models the
`ValueError` the Python function raises. -/
def yyyymmdd_str_to_date (s : String) : Option Date :=
  match s.data with
  | [y0, y1, y2, y3, m0, m1, d0, d1] =>
    if (y0 = '2' ∧ y1 = '0') ∧ (y2.isDigit ∧ y3.isDigit ∧ m0.isDigit ∧
        m1.isDigit ∧ d0.isDigit ∧ d1.isDigit) then
      if Valid ⟨2000 + 10 * digitVal y2 + digitVal y3,
          10 * digitVal m0 + digitVal m1, 10 * digitVal d0 + digitVal d1⟩ then
        some ⟨2000 + 10 * digitVal y2 + digitVal y3,
          10 * digitVal m0 + digitVal m1, 10 * digitVal d0 + digitVal d1⟩
      else none
    else none
  | _ => none

/-- Any string whose first two characters are not `20` is rejected by the
parser, whatever follows. -/
theorem yyyymmdd_str_to_date_eq_none {s : String} {c0 c1 : Char}
    {rest : List Char} (hdata : s.data = c0 :: c1 :: rest)
    (h : ¬ (c0 = '2' ∧ c1 = '0')) : yyyymmdd_str_to_date s = none := by
  unfold yyyymmdd_str_to_date
  rw [hdata]
  rcases rest with _ | ⟨a2, _ | ⟨a3, _ | ⟨a4, _ | ⟨a5, _ | ⟨a6, _ | ⟨a7, rest⟩⟩⟩⟩⟩⟩
  · rfl
  · rfl
  · rfl
  · rfl
  · rfl
  · rfl
  · cases rest with
    | nil => exact if_neg (fun hc => h hc.1)
    | cons a8 rest => rfl

/-- Rendering a valid 21st-century date with `%Y%m%d` and re-parsing it
returns the same date. -/
theorem yyyymmdd_roundtrip {d : Date} (hv : Valid d) (h1 : 2000 ≤ d.year)
    (h2 : d.year ≤ 2099) :
    yyyymmdd_str_to_date (String.mk (strftimeYyyymmdd d)) = some d := by
  have hdigits := strftimeYyyymmdd_digits hv (by omega)
  obtain ⟨y, m, dd⟩ := d
  obtain ⟨hy1, hy2, hm1, hm2, hd1, hd2⟩ := hv
  simp only at hy1 hy2 hm1 hm2 hd1 hd2 hdigits h1 h2
  have hdim : dd ≤ 31 := le_trans hd2 (daysInMonth_le _ _)
  have hq : y / 1000 = 2 := by omega
  have hr : y / 100 % 10 = 0 := by omega
  have h2c : digitChar 2 = '2' := by decide
  have h0c : digitChar 0 = '0' := by decide
  have ey : 2000 + 10 * digitVal (digitChar (y / 10 % 10))
      + digitVal (digitChar (y % 10)) = y := by
    rw [digitVal_digitChar (by omega), digitVal_digitChar (by omega)]
    omega
  have em : 10 * digitVal (digitChar (m / 10))
      + digitVal (digitChar (m % 10)) = m := by
    rw [digitVal_digitChar (by omega), digitVal_digitChar (by omega)]
    omega
  have ed : 10 * digitVal (digitChar (dd / 10))
      + digitVal (digitChar (dd % 10)) = dd := by
    rw [digitVal_digitChar (by omega), digitVal_digitChar (by omega)]
    omega
  unfold yyyymmdd_str_to_date
  simp only [hdigits, hq, hr, h2c, h0c]
  rw [if_pos (by
    refine ⟨⟨trivial, trivial⟩, ?_, ?_, ?_, ?_, ?_, ?_⟩ <;>
      exact digitChar_isDigit (by omega))]
  simp only [ey, em, ed]
  rw [if_pos ⟨hy1, hy2, hm1, hm2, hd1, hd2⟩]

/-! ## Futures trading codes (`utils.ExpirationMonthCode`,
`utils.FuturesTradingCode`). -/

/-- Lookup `ExpirationMonthCode[c].value`: the 12-letter futures month convention;
`none` models the `KeyError` for any other character. -/
def letterToMonth (c : Char) : Option Nat :=
  match c with
  | 'F' => some 1
  | 'G' => some 2
  | 'H' => some 3
  | 'J' => some 4
  | 'K' => some 5
  | 'M' => some 6
  | 'N' => some 7
  | 'Q' => some 8
  | 'U' => some 9
  | 'V' => some 10
  | 'X' => some 11
  | 'Z' => some 12
  | _ => none

/-- Month number (1-12) to futures month letter. -/
def monthLetter (m : Nat) : Char :=
  match m with
  | 1 => 'F'
  | 2 => 'G'
  | 3 => 'H'
  | 4 => 'J'
  | 5 => 'K'
  | 6 => 'M'
  | 7 => 'N'
  | 8 => 'Q'
  | 9 => 'U'
  | 10 => 'V'
  | 11 => 'X'
  | 12 => 'Z'
  | _ => ' '

structure FuturesTradingCode where
  product : List Char
  month : Nat
  year : Nat
  deriving DecidableEq, Repr

/-- Model of `utils.FuturesTradingCode.from_str`: reject codes of length ≤ 2; the
second-to-last character must be a futures month letter, the last one a
decimal digit; the rest is the product code.  `Except.error` models the
raised `ValueError`. -/
def FuturesTradingCode.from_str (code : List Char) :
    Except String FuturesTradingCode :=
  if code.length ≤ 2 then .error "Invalid code format."
  else
    match letterToMonth (code.getD (code.length - 2) ' ') with
    | none => .error "is not a valid month code."
    | some month =>
      let yc := code.getD (code.length - 1) ' '
      if yc.isDigit then
        .ok ⟨code.take (code.length - 2), month, yc.toNat - 48⟩
      else .error "is not a valid year code."

theorem getD_append_two_left {p : List Char} {c d : Char} :
    (p ++ [c, d]).getD (p.length + 2 - 2) ' ' = c := by
  have h : p.length + 2 - 2 = p.length := by omega
  rw [h]
  simp [List.getD, List.getElem?_append_right (Nat.le_refl p.length)]

theorem getD_append_two_right {p : List Char} {c d : Char} :
    (p ++ [c, d]).getD (p.length + 2 - 1) ' ' = d := by
  have h : p.length + 2 - 1 = p.length + 1 := by omega
  rw [h]
  simp [List.getD, List.getElem?_append_right (show p.length ≤ p.length + 1 by omega)]

theorem from_str_append {p : List Char} {c d : Char} (hp : p ≠ []) :
    FuturesTradingCode.from_str (p ++ [c, d])
      = match letterToMonth c with
        | none => .error "is not a valid month code."
        | some month =>
          if d.isDigit then .ok ⟨p, month, d.toNat - 48⟩
          else .error "is not a valid year code." := by
  have hlen : (p ++ [c, d]).length = p.length + 2 := by simp
  have hpos : 1 ≤ p.length := by
    cases p with
    | nil => exact absurd rfl hp
    | cons x xs => simp
  unfold FuturesTradingCode.from_str
  rw [if_neg (by omega : ¬ (p ++ [c, d]).length ≤ 2)]
  rw [hlen, getD_append_two_left, getD_append_two_right]
  have htake : (p ++ [c, d]).take (p.length + 2 - 2) = p := by
    have h : p.length + 2 - 2 = p.length := by omega
    rw [h]
    exact List.take_left p [c, d]
  rw [htake]

/-! ## String splitting and joining (Python `str.split` / `str.join` with a
one-character separator). -/

/-- Python `text.split(sep)` for a single-character separator: always
non-empty, keeps empty chunks. -/
def splitOnChar (sep : Char) : List Char → List (List Char)
  | [] => [[]]
  | c :: cs =>
    if c = sep then [] :: splitOnChar sep cs
    else
      match splitOnChar sep cs with
      | [] => [[c]]
      | h :: t => (c :: h) :: t

/-- Python `sep.join(chunks)` for a single-character separator. -/
def joinSep (sep : Char) : List (List Char) → List Char
  | [] => []
  | [x] => x
  | x :: y :: t => x ++ sep :: joinSep sep (y :: t)

theorem splitOnChar_ne_nil (sep : Char) (l : List Char) :
    splitOnChar sep l ≠ [] := by
  cases l with
  | nil => simp [splitOnChar]
  | cons c cs =>
    unfold splitOnChar
    split_ifs
    · simp
    · match h : splitOnChar sep cs with
      | [] => simp
      | h1 :: t => simp

theorem joinSep_splitOnChar (sep : Char) (l : List Char) :
    joinSep sep (splitOnChar sep l) = l := by
  induction l with
  | nil => rfl
  | cons c cs ih =>
    unfold splitOnChar
    split_ifs with hc
    · subst hc
      match h : splitOnChar c cs with
      | [] => exact absurd h (splitOnChar_ne_nil c cs)
      | h1 :: t =>
        rw [h] at ih
        show ([] : List Char) ++ c :: joinSep c (h1 :: t) = c :: cs
        rw [ih]
        rfl
    · match h : splitOnChar sep cs with
      | [] => exact absurd h (splitOnChar_ne_nil sep cs)
      | h1 :: t =>
        rw [h] at ih
        cases t with
        | nil =>
          show c :: h1 = c :: cs
          rw [show joinSep sep [h1] = h1 from rfl] at ih
          rw [ih]
        | cons t1 t2 =>
          show (c :: h1) ++ sep :: joinSep sep (t1 :: t2) = c :: cs
          rw [← ih]
          rfl

theorem joinSep_append (sep : Char) {l1 l2 : List (List Char)}
    (h1 : l1 ≠ []) (h2 : l2 ≠ []) :
    joinSep sep (l1 ++ l2) = joinSep sep l1 ++ sep :: joinSep sep l2 := by
  induction l1 with
  | nil => exact absurd rfl h1
  | cons x t ih =>
    cases t with
    | nil =>
      cases l2 with
      | nil => exact absurd rfl h2
      | cons y t2 => rfl
    | cons x2 t2 =>
      have step : joinSep sep (x :: x2 :: (t2 ++ l2))
          = x ++ sep :: joinSep sep (x2 :: (t2 ++ l2)) := rfl
      show joinSep sep (x :: x2 :: (t2 ++ l2)) = _
      simp only [List.cons_append] at ih
      rw [step, ih (by simp)]
      rw [show joinSep sep (x :: x2 :: t2) = x ++ sep :: joinSep sep (x2 :: t2)
        from rfl, List.append_assoc]
      rfl

/-! ## `s3/client.py`: path-template helpers. -/

def lbrace : Char := Char.ofNat 123

def rbrace : Char := Char.ofNat 125

/-- The set `PlaceHolders.ALL` from `s3/client.py`. -/
def PlaceHoldersALL : List (List Char) :=
  ["yyyymmdd".data, "yyyy".data, "ss".data, "ssmy".data, "s".data,
    "sss".data, "expdate".data]

/-- The placeholder substitution: wrap recognized placeholder names in
braces, pass anything else through. -/
def placeholderSubst (x : List Char) : List Char :=
  if x ∈ PlaceHoldersALL then lbrace :: x ++ [rbrace] else x

/-- Model of `utils.remove_duplicates_preserve_order`. -/
def removeDupAux {α : Type} [DecidableEq α] (seen : List α) : List α → List α
  | [] => []
  | x :: xs =>
    if x ∈ seen then removeDupAux seen xs
    else x :: removeDupAux (x :: seen) xs

def remove_duplicates_preserve_order {α : Type} [DecidableEq α]
    (l : List α) : List α :=
  removeDupAux [] l

/-- Model of `client._split_object_path_into_prefixes`. -/
def _split_object_path_into_prefixes (path : List Char) :
    List (List Char) × List Char :=
  let parts := splitOnChar '/' path
  if parts.length > 1 then (parts.dropLast, parts.getLastD [])
  else ([], parts.headD [])

/-- Model of `client._make_name_template`. -/
def _make_name_template (name : List Char) : List Char × List (List Char) :=
  let parts := splitOnChar '.' name
  let lastPart := parts.getLastD []
  let ext_parts :=
    if lastPart = "zip".data ∨ lastPart = "gz".data then
      (joinSep '.' (parts.drop (parts.length - 2)), parts.take (parts.length - 2))
    else (lastPart, parts.dropLast)
  (joinSep '.' (ext_parts.2.map placeholderSubst) ++ '.' :: ext_parts.1,
    ext_parts.2.filter (fun x => decide (x ∈ PlaceHoldersALL)))

/-- Model of `client._make_prefix_template`. -/
def _make_prefix_template (pres : List (List Char)) :
    List Char × List (List Char) :=
  (joinSep '/' (pres.map placeholderSubst),
    pres.filter (fun x => decide (x ∈ PlaceHoldersALL)))

/-- Model of `client.create_objects_path_template`. -/
def create_objects_path_template (path : List Char) :
    List Char × List (List Char) :=
  let pn := _split_object_path_into_prefixes path
  let nt := _make_name_template pn.2
  let pt := _make_prefix_template pn.1
  let template := if pt.1 ≠ [] then pt.1 ++ '/' :: nt.1 else nt.1
  (template, remove_duplicates_preserve_order (pt.2 ++ nt.2))

/-! ## `client._normalize_date` and `client._make_list_of_date_prefixes`. -/

/-- A Python value accepted as one date: a `yyyymmdd` string or a
`datetime.date`. -/
inductive DateInput where
  | str (s : String)
  | date (d : Date)
  deriving DecidableEq, Repr

/-- A Python value accepted as a date filter: a `(start, end)` tuple or a
single value. -/
inductive DateFilterValue where
  | range (a b : DateInput)
  | single (v : DateInput)
  deriving DecidableEq, Repr

/-- Model of `client._normalize_date`; `Except.error` models the raised
`ValueError`. -/
def _normalize_date : DateInput → Except String Date
  | .date d => .ok d
  | .str s =>
    match yyyymmdd_str_to_date s with
    | some d => .ok d
    | none => .error "does not match the yyyymmdd format."

/-- Model of `client._make_list_of_date_prefixes`: normalize to a start/end pair
(a single value becomes a degenerate range), then render each day of the
inclusive range with `%Y%m%d`. -/
def _make_list_of_date_prefixes (values : DateFilterValue) :
    Except String (List (List Char)) :=
  match values with
  | .range a b => do
    let s ← _normalize_date a
    let e ← _normalize_date b
    .ok ((iterate_date_range s e).map strftimeYyyymmdd)
  | .single v => do
    let s ← _normalize_date v
    .ok ((iterate_date_range s s).map strftimeYyyymmdd)

/-! ## The `s3/downloader` module

`algoseek_connector.s3.downloader` is not among the available sources (only
its unit tests and callers are), so the definitions below are modelled from
the specification: the placeholder catalog (§3), the tokenizer (§4.1), the
axis value generators (§4.2), the object-key generator (§4.3), the selection
filter `S3KeyFilter` (§4.4) and the download orchestrator (§4.5). -/

/-- Modelled from the spec: the closed placeholder catalog of the missing
`downloader.PlaceHolder` enum — full date, year, symbol first letter, full
symbol, product code, futures trading code. -/
inductive PH where
  | yyyymmdd
  | yyyy
  | s
  | sss
  | ss
  | ssmy
  deriving DecidableEq, Repr, Fintype

/-- Modelled from the spec: the selection axis each placeholder belongs to. -/
inductive Axis where
  | date
  | symbol
  | futures
  deriving DecidableEq, Repr

def phName : PH → List Char
  | .yyyymmdd => "yyyymmdd".data
  | .yyyy => "yyyy".data
  | .s => "s".data
  | .sss => "sss".data
  | .ss => "ss".data
  | .ssmy => "ssmy".data

def axisOf : PH → Axis
  | .yyyymmdd => .date
  | .yyyy => .date
  | .s => .symbol
  | .sss => .symbol
  | .ss => .futures
  | .ssmy => .futures

/-- One segment of a tokenized path format: literal text or a placeholder. -/
inductive Seg where
  | lit (t : List Char)
  | ph (p : PH)
  deriving DecidableEq, Repr

/-- Modelled from the spec: `downloader._split_path_format` — split on `/`
and `.` while preserving the separators as their own segments. -/
def splitKeepSepGo : List Char → List Char → List (List Char)
  | [], acc => if acc = [] then [] else [acc.reverse]
  | c :: cs, acc =>
    if c = '/' ∨ c = '.' then
      if acc = [] then [c] :: splitKeepSepGo cs []
      else acc.reverse :: [c] :: splitKeepSepGo cs []
    else splitKeepSepGo cs (c :: acc)

def splitKeepSep (l : List Char) : List (List Char) := splitKeepSepGo l []

/-- Modelled from the spec: a segment is a placeholder iff it exactly
matches a known name; anything else is literal text. -/
def parseSeg (t : List Char) : Seg :=
  if t = "yyyymmdd".data then .ph .yyyymmdd
  else if t = "yyyy".data then .ph .yyyy
  else if t = "sss".data then .ph .sss
  else if t = "ss".data then .ph .ss
  else if t = "ssmy".data then .ph .ssmy
  else if t = "s".data then .ph .s
  else .lit t

def segPH : Seg → Option PH
  | .ph p => some p
  | .lit _ => none

/-- Modelled from the spec: the futures trading code derived value —
product code, month letter (12-letter convention), year modulo 10. -/
def futures_trading_code (sym : List Char) (y m : Nat) : List Char :=
  sym ++ [monthLetter m, digitChar (y % 10)]

/-- Modelled from the spec: the year-months touched by an inclusive
expiration range, iterated by month. -/
def monthRange (a b : Date) : List (Nat × Nat) :=
  let la := 12 * a.year + (a.month - 1)
  let lb := 12 * b.year + (b.month - 1)
  (List.range (lb + 1 - la)).map (fun k => ((la + k) / 12, (la + k) % 12 + 1))

/-- A validated selection: what a constructed `S3KeyFilter` holds. -/
structure S3KeyFilterV where
  dateStart : Date
  dateEnd : Date
  symbols : List (List Char)
  expiration : Option (Date × Date)
  deriving DecidableEq, Repr

/-- A Python value accepted as the symbols argument. -/
inductive SymbolsInput where
  | one (s : String)
  | many (l : List String)
  deriving DecidableEq, Repr

/-- Model of `client._make_list_of_tickers`: a single string becomes a one-element
list; a list of strings is taken as is. -/
def _make_list_of_tickers : SymbolsInput → List (List Char)
  | .one s => [s.data]
  | .many l => l.map String.data

/-- Normalize a date argument to an inclusive `(start, end)` pair: a single
value becomes the degenerate range. -/
def normalizeDateArg : DateFilterValue → Except String (Date × Date)
  | .single v => do
    let d ← _normalize_date v
    .ok (d, d)
  | .range a b => do
    let s ← _normalize_date a
    let e ← _normalize_date b
    .ok (s, e)

/-- Modelled from the spec: the missing `downloader.S3KeyFilter`
constructor — normalizes the date argument (single value ⇒ degenerate
range), fails with a range error when `start > end`, normalizes the symbols,
and applies the same normalization and validation to the optional expiration
range. -/
def S3KeyFilter_make (date : DateFilterValue) (symbols : SymbolsInput)
    (expiration : Option DateFilterValue) : Except String S3KeyFilterV := do
  let dr ← normalizeDateArg date
  if dateLe dr.1 dr.2 then
    match expiration with
    | none => .ok ⟨dr.1, dr.2, _make_list_of_tickers symbols, none⟩
    | some ev => do
      let er ← normalizeDateArg ev
      if dateLe er.1 er.2 then
        .ok ⟨dr.1, dr.2, _make_list_of_tickers symbols, some er⟩
      else .error "Invalid expiration date range."
  else .error "Invalid date range."

/-- Rendering one fill value for each placeholder, given the date, symbol
and futures choices of one cross-product combination.  An absent axis keeps
the braces text; it is never rendered because the axis is absent exactly
when no placeholder of that axis occurs. -/
def mkFill (od : Option Date) (os : Option (List Char))
    (ofu : Option (List Char × Nat × Nat)) : PH → List Char
  | .yyyymmdd =>
    match od with
    | some d => strftimeYyyymmdd d
    | none => lbrace :: phName .yyyymmdd ++ [rbrace]
  | .yyyy =>
    match od with
    | some d => natDigits d.year
    | none => lbrace :: phName .yyyy ++ [rbrace]
  | .s =>
    match os with
    | some t => t.take 1
    | none => lbrace :: phName .s ++ [rbrace]
  | .sss =>
    match os with
    | some t => t
    | none => lbrace :: phName .sss ++ [rbrace]
  | .ss =>
    match ofu with
    | some u => u.1
    | none => lbrace :: phName .ss ++ [rbrace]
  | .ssmy =>
    match ofu with
    | some u => futures_trading_code u.1 u.2.1 u.2.2
    | none => lbrace :: phName .ssmy ++ [rbrace]

def renderSeg (fill : PH → List Char) : Seg → List Char
  | .lit t => t
  | .ph p => fill p

def renderKey (segs : List Seg) (od : Option Date) (os : Option (List Char))
    (ofu : Option (List Char × Nat × Nat)) : List Char :=
  (segs.map (renderSeg (mkFill od os ofu))).flatten

/-- Modelled from the spec: the missing `downloader._generate_object_keys` —
tokenize the path format once, enumerate fill values for each axis that
occurs in the template (dates day by day, symbols in caller order, futures
once per symbol and touched year-month), take the cross product of the
present axes, render every segment and concatenate.  An absent futures
expiration for a futures template yields no keys (spec §9 open question). -/
def generate_object_keys (pathFormat : List Char) (f : S3KeyFilterV) :
    List (List Char) :=
  let segs := (splitKeepSep pathFormat).map parseSeg
  let phs := segs.filterMap segPH
  let dOpts : List (Option Date) :=
    if phs.any (fun p => decide (axisOf p = Axis.date)) then
      (iterate_date_range f.dateStart f.dateEnd).map some
    else [none]
  let sOpts : List (Option (List Char)) :=
    if phs.any (fun p => decide (axisOf p = Axis.symbol)) then
      f.symbols.map some
    else [none]
  let fOpts : List (Option (List Char × Nat × Nat)) :=
    if phs.any (fun p => decide (axisOf p = Axis.futures)) then
      match f.expiration with
      | some er =>
        f.symbols.flatMap (fun sym =>
          (monthRange er.1 er.2).map (fun ym => some (sym, ym.1, ym.2)))
      | none => []
    else [none]
  dOpts.flatMap (fun od =>
    sOpts.flatMap (fun os =>
      fOpts.map (fun ofu => renderKey segs od os ofu)))

/-- The orchestrator's failure modes relevant here. -/
inductive DownloadError where
  | destinationError
  deriving DecidableEq, Repr

/-- Modelled from the spec: the missing download orchestrator state machine
(VALIDATE → GENERATE_KEYS → FETCH_EACH).  The second component is the trace
of keys handed to the storage client; a missing destination directory fails
before any key is generated, with an empty trace. -/
def download_orchestrate (destExists : Bool) (pathFormat : List Char)
    (f : S3KeyFilterV) :
    Except DownloadError (List (List Char)) × List (List Char) :=
  if destExists then
    (.ok (generate_object_keys pathFormat f), generate_object_keys pathFormat f)
  else (.error .destinationError, [])

/-! ## Generic list lemmas for the cross-product arguments. -/

theorem flatten_map_inj {α : Type} (f g : α → List Char) :
    ∀ (l : List α), (∀ a ∈ l, (f a).length = (g a).length) →
      (l.map f).flatten = (l.map g).flatten → ∀ a ∈ l, f a = g a := by
  intro l
  induction l with
  | nil => intro _ _ a ha; cases ha
  | cons x t ih =>
    intro hlen heq a ha
    simp only [List.map_cons, List.flatten_cons] at heq
    obtain ⟨hhead, htail⟩ :=
      List.append_inj heq (hlen x (by simp))
    rcases List.mem_cons.mp ha with rfl | hat
    · exact hhead
    · exact ih (fun b hb => hlen b (by simp [hb])) htail a hat

theorem length_flatMap_prod {α β γ : Type} (l1 : List α) (l2 : List β)
    (K : α → β → γ) :
    (l1.flatMap fun a => l2.map (K a)).length = l1.length * l2.length := by
  induction l1 with
  | nil => simp
  | cons x t ih =>
    simp only [List.flatMap_cons, List.length_append, List.length_map, ih,
      List.length_cons]
    ring

theorem nodup_flatMap_prod {α β γ : Type} {l1 : List α} {l2 : List β}
    {K : α → β → γ} (h1 : l1.Nodup) (h2 : l2.Nodup)
    (hinj : ∀ a1 ∈ l1, ∀ b1 ∈ l2, ∀ a2 ∈ l1, ∀ b2 ∈ l2,
      K a1 b1 = K a2 b2 → a1 = a2 ∧ b1 = b2) :
    (l1.flatMap fun a => l2.map (K a)).Nodup := by
  induction l1 with
  | nil => simp
  | cons x t ih =>
    simp only [List.flatMap_cons, List.nodup_append]
    obtain ⟨hx, ht⟩ := List.nodup_cons.mp h1
    refine ⟨?_, ?_, ?_⟩
    · exact List.Nodup.map_on
        (fun b1 hb1 b2 hb2 heq =>
          (hinj x (by simp) b1 hb1 x (by simp) b2 hb2 heq).2) h2
    · exact ih ht (fun a1 ha1 b1 hb1 a2 ha2 b2 hb2 heq =>
        hinj a1 (by simp [ha1]) b1 hb1 a2 (by simp [ha2]) b2 hb2 heq)
    · intro k hk1 hk2
      obtain ⟨b1, hb1, rfl⟩ := List.mem_map.mp hk1
      obtain ⟨a2, ha2, hk2m⟩ := List.mem_flatMap.mp hk2
      obtain ⟨b2, hb2, heq⟩ := List.mem_map.mp hk2m
      have := hinj x (by simp) b1 hb1 a2 (by simp [ha2]) b2 hb2 heq.symm
      exact hx (this.1 ▸ ha2)

/-! ## Rendered segment lengths and key injectivity. -/

/-- The length of one rendered segment, as a function of the full-symbol
fill length `L` (all other date/symbol fills have fixed widths). -/
def lenSeg (L : Nat) : Seg → Nat
  | .lit t => t.length
  | .ph .yyyymmdd => 8
  | .ph .yyyy => 4
  | .ph .s => 1
  | .ph .sss => L
  | .ph .ss => 0
  | .ph .ssmy => 0

theorem strftimeYyyymmdd_length {d : Date} (hv : Valid d)
    (hy : 1000 ≤ d.year) : (strftimeYyyymmdd d).length = 8 := by
  rw [strftimeYyyymmdd_digits hv hy]
  rfl

theorem natDigits_year_length {y : Nat} (h1 : 1000 ≤ y) (h2 : y ≤ 9999) :
    (natDigits y).length = 4 := by
  rw [natDigits_four h1 h2]
  rfl

theorem renderSeg_length {d : Date} {sym : List Char} (hv : Valid d)
    (hy : 1000 ≤ d.year) (hsym : sym ≠ []) {sg : Seg}
    (hax : ∀ p : PH, sg = Seg.ph p → axisOf p = Axis.date ∨ axisOf p = Axis.symbol) :
    (renderSeg (mkFill (some d) (some sym) none) sg).length
      = lenSeg sym.length sg := by
  cases sg with
  | lit t => rfl
  | ph p =>
    cases p with
    | yyyymmdd =>
      show (strftimeYyyymmdd d).length = 8
      exact strftimeYyyymmdd_length hv hy
    | yyyy =>
      show (natDigits d.year).length = 4
      exact natDigits_year_length hy hv.2.1
    | s =>
      show (sym.take 1).length = 1
      have hpos : 0 < sym.length := List.length_pos.mpr hsym
      simp [List.length_take]
      omega
    | sss => rfl
    | ss =>
      rcases hax PH.ss rfl with h | h <;> simp [axisOf] at h
    | ssmy =>
      rcases hax PH.ssmy rfl with h | h <;> simp [axisOf] at h

theorem lenSeg_indep {L : Nat} {sg : Seg} (h : sg ≠ Seg.ph PH.sss) :
    lenSeg L sg = lenSeg 0 sg := by
  cases sg with
  | lit t => rfl
  | ph p => cases p <;> first | rfl | exact absurd rfl h

theorem sum_lenSeg (segs : List Seg) (L : Nat) :
    (segs.map (lenSeg L)).sum
      = (segs.map (lenSeg 0)).sum
        + (segs.countP (fun sg => decide (sg = Seg.ph PH.sss))) * L := by
  induction segs with
  | nil => simp
  | cons sg t ih =>
    simp only [List.map_cons, List.sum_cons, List.countP_cons, ih]
    by_cases hs : sg = Seg.ph PH.sss
    · subst hs
      simp [lenSeg]
      ring
    · rw [lenSeg_indep hs]
      simp [hs]
      omega

/-- Key rendering is injective in the date and the symbol, whenever the
template's placeholders all come from the date/symbol axes and both the
full-date and the full-symbol placeholders occur. -/
theorem renderKey_inj {segs : List Seg}
    (hymd : Seg.ph PH.yyyymmdd ∈ segs) (hsss : Seg.ph PH.sss ∈ segs)
    (hax : ∀ p : PH, Seg.ph p ∈ segs →
      axisOf p = Axis.date ∨ axisOf p = Axis.symbol)
    {d1 d2 : Date} {s1 s2 : List Char} (hv1 : Valid d1) (hv2 : Valid d2)
    (hy1 : 1000 ≤ d1.year) (hy2 : 1000 ≤ d2.year)
    (hs1 : s1 ≠ []) (hs2 : s2 ≠ [])
    (heq : renderKey segs (some d1) (some s1) none
      = renderKey segs (some d2) (some s2) none) :
    d1 = d2 ∧ s1 = s2 := by
  have hlen1 : ∀ sg ∈ segs,
      (renderSeg (mkFill (some d1) (some s1) none) sg).length
        = lenSeg s1.length sg := by
    intro sg hsg
    exact renderSeg_length hv1 hy1 hs1 (fun p hp => hax p (hp ▸ hsg))
  have hlen2 : ∀ sg ∈ segs,
      (renderSeg (mkFill (some d2) (some s2) none) sg).length
        = lenSeg s2.length sg := by
    intro sg hsg
    exact renderSeg_length hv2 hy2 hs2 (fun p hp => hax p (hp ▸ hsg))
  -- total lengths agree, so the symbol lengths agree
  have htot := congrArg List.length heq
  unfold renderKey at htot
  rw [List.length_flatten, List.length_flatten, List.map_map, List.map_map]
    at htot
  simp only [Function.comp_def] at htot
  rw [List.map_congr_left (fun sg hsg => hlen1 sg hsg),
    List.map_congr_left (fun sg hsg => hlen2 sg hsg)] at htot
  rw [sum_lenSeg segs s1.length, sum_lenSeg segs s2.length] at htot
  have hcount : 0 < segs.countP (fun sg => decide (sg = Seg.ph PH.sss)) :=
    List.countP_pos_iff.mpr ⟨Seg.ph PH.sss, hsss, by simp⟩
  have hLL : s1.length = s2.length := by
    have := Nat.eq_of_mul_eq_mul_left hcount
      (by omega :
        segs.countP (fun sg => decide (sg = Seg.ph PH.sss)) * s1.length
          = segs.countP (fun sg => decide (sg = Seg.ph PH.sss)) * s2.length)
    exact this
  -- per-segment equality
  have hsegeq := flatten_map_inj
    (renderSeg (mkFill (some d1) (some s1) none))
    (renderSeg (mkFill (some d2) (some s2) none)) segs
    (fun sg hsg => by rw [hlen1 sg hsg, hlen2 sg hsg, hLL]) heq
  constructor
  · have h1 := hsegeq (Seg.ph PH.yyyymmdd) hymd
    exact strftimeYyyymmdd_inj hv1 hv2 hy1 hy2 h1
  · exact hsegeq (Seg.ph PH.sss) hsss

/-! ## Remaining small helpers for the claim theorems. -/

theorem dateLe_refl (d : Date) : dateLe d d := by
  unfold dateLe
  omega

theorem not_dateLe_of_dateLt {a b : Date} (h : dateLt b a) : ¬ dateLe a b := by
  unfold dateLt at h
  unfold dateLe
  omega

theorem except_bind_ok {α β : Type} (a : α) (f : α → Except String β) :
    (Except.ok a : Except String α) >>= f = f a := rfl

/-! # Claim theorems -/

/-- C4 counterexample: the render/parse round trip fails outside the
21st century — `1999-12-31` renders to `"19991231"`, which
`yyyymmdd_str_to_date` rejects, so the round trip does not hold for every
calendar date. -/
theorem C4_counterexample :
    Valid ⟨1999, 12, 31⟩
    ∧ strftimeYyyymmdd ⟨1999, 12, 31⟩ = "19991231".data
    ∧ yyyymmdd_str_to_date (String.mk (strftimeYyyymmdd ⟨1999, 12, 31⟩))
        = none := by
  refine ⟨by decide, by decide, by decide⟩

/-- C4 (amended): for every valid date with year 2000–2099 — the years the
parser's pattern accepts — rendering with `%Y%m%d` and re-parsing with
`yyyymmdd_str_to_date` returns the original date. -/
theorem C4_render_parse_roundtrip (d : Date) (hv : Valid d)
    (h1 : 2000 ≤ d.year) (h2 : d.year ≤ 2099) :
    yyyymmdd_str_to_date (String.mk (strftimeYyyymmdd d)) = some d :=
  yyyymmdd_roundtrip hv h1 h2

theorem C4_witness :
    yyyymmdd_str_to_date (String.mk (strftimeYyyymmdd ⟨2023, 7, 3⟩))
      = some ⟨2023, 7, 3⟩ :=
  C4_render_parse_roundtrip ⟨2023, 7, 3⟩ (by decide) (by decide) (by decide)

/-- C5: for `start ≤ end`, `iterate_date_range` enumerates exactly one date
per calendar day of the closed interval — `(end − start) + 1` of them, in
strictly increasing order, with both endpoints included. -/
theorem C5_date_axis (s e : Date) (hs : Valid s) (he : Valid e)
    (hle : dateLe s e) :
    (iterate_date_range s e).length = toOrdinal e + 1 - toOrdinal s
    ∧ (iterate_date_range s e).map toOrdinal
        = List.range' (toOrdinal s) (toOrdinal e + 1 - toOrdinal s)
    ∧ s ∈ iterate_date_range s e
    ∧ e ∈ iterate_date_range s e
    ∧ List.Pairwise dateLt (iterate_date_range s e) := by
  obtain ⟨hmap, hval⟩ := iterate_date_range_spec hs he
  have hord : toOrdinal s ≤ toOrdinal e := toOrdinal_le_of_dateLe hs he hle
  have hlength : (iterate_date_range s e).length
      = toOrdinal e + 1 - toOrdinal s := by
    have := congrArg List.length hmap
    rwa [List.length_map, List.length_range'] at this
  have hmem : ∀ n, toOrdinal s ≤ n → n ≤ toOrdinal e →
      ∃ x ∈ iterate_date_range s e, toOrdinal x = n := by
    intro n h1 h2
    have : n ∈ List.range' (toOrdinal s) (toOrdinal e + 1 - toOrdinal s) :=
      List.mem_range'.mpr ⟨n - toOrdinal s, by omega, by omega⟩
    rw [← hmap] at this
    obtain ⟨x, hx, hxe⟩ := List.mem_map.mp this
    exact ⟨x, hx, hxe⟩
  refine ⟨hlength, hmap, ?_, ?_, ?_⟩
  · obtain ⟨x, hx, hxe⟩ := hmem (toOrdinal s) (Nat.le_refl _) hord
    have : x = s := eq_of_toOrdinal_eq (hval x hx) hs hxe
    exact this ▸ hx
  · obtain ⟨x, hx, hxe⟩ := hmem (toOrdinal e) hord (Nat.le_refl _)
    have : x = e := eq_of_toOrdinal_eq (hval x hx) he hxe
    exact this ▸ hx
  · have hp : List.Pairwise (· < ·)
        (List.range' (toOrdinal s) (toOrdinal e + 1 - toOrdinal s)) :=
      List.pairwise_lt_range' _ _
    rw [← hmap] at hp
    have hp2 := List.pairwise_map.mp hp
    refine List.Pairwise.imp_of_mem ?_ hp2
    intro a b ha hb hlt
    by_contra hcon
    have hba : dateLe b a := dateLe_of_not_dateLt hcon
    have := toOrdinal_le_of_dateLe (hval b hb) (hval a ha) hba
    omega

theorem C5_witness :
    (iterate_date_range ⟨2023, 7, 3⟩ ⟨2023, 7, 5⟩).length
        = toOrdinal ⟨2023, 7, 5⟩ + 1 - toOrdinal ⟨2023, 7, 3⟩
    ∧ (iterate_date_range ⟨2023, 7, 3⟩ ⟨2023, 7, 5⟩).map toOrdinal
        = List.range' (toOrdinal ⟨2023, 7, 3⟩)
            (toOrdinal ⟨2023, 7, 5⟩ + 1 - toOrdinal ⟨2023, 7, 3⟩)
    ∧ (⟨2023, 7, 3⟩ : Date) ∈ iterate_date_range ⟨2023, 7, 3⟩ ⟨2023, 7, 5⟩
    ∧ (⟨2023, 7, 5⟩ : Date) ∈ iterate_date_range ⟨2023, 7, 3⟩ ⟨2023, 7, 5⟩
    ∧ List.Pairwise dateLt (iterate_date_range ⟨2023, 7, 3⟩ ⟨2023, 7, 5⟩) :=
  C5_date_axis ⟨2023, 7, 3⟩ ⟨2023, 7, 5⟩ (by decide) (by decide) (by decide)

/-- C8: a missing destination directory makes the orchestrator fail with
`DestinationError` before any key is generated and before any storage-client
call: the result is the error, and the trace of keys handed to the storage
client is empty, for every path format and selection. -/
theorem C8_destination_error :
    ∀ (pf : List Char) (f : S3KeyFilterV),
      download_orchestrate false pf f
        = (Except.error DownloadError.destinationError, []) :=
  fun _ _ => rfl

/-- C9: `yyyymmdd_str_to_date` accepts only years 2000–2099. Any string
whose first two characters are not `20` — in particular any 8-digit
rendering of a valid date of another century, such as `"19991231"` — is
rejected. -/
theorem C9_parser_rejects_other_centuries :
    (∀ (s : String) (c0 c1 : Char) (rest : List Char),
        s.data = c0 :: c1 :: rest → ¬ (c0 = '2' ∧ c1 = '0') →
        yyyymmdd_str_to_date s = none)
    ∧ yyyymmdd_str_to_date "19991231" = none := by
  exact ⟨fun _ _ _ _ h1 h2 => yyyymmdd_str_to_date_eq_none h1 h2, by decide⟩

theorem C9_witness : yyyymmdd_str_to_date "19991231" = none :=
  C9_parser_rejects_other_centuries.1 "19991231" '1' '9' "991231".data
    rfl (by decide)

/-- C10: an inverted date range at the `iterate_date_range` /
`_make_list_of_date_prefixes` layer silently yields zero date fills — the
empty list, without any error. -/
theorem C10_inverted_range_empty (s e : Date) (h : dateLt e s) :
    iterate_date_range s e = []
    ∧ _make_list_of_date_prefixes
        (DateFilterValue.range (DateInput.date s) (DateInput.date e))
      = Except.ok [] := by
  have hne : ¬ dateLe s e := not_dateLe_of_dateLt h
  have h0 : iterate_date_range s e = [] := iterate_date_range_empty hne
  refine ⟨h0, ?_⟩
  show (Except.ok s : Except String Date) >>= (fun s0 =>
    (Except.ok e : Except String Date) >>= (fun e0 =>
      Except.ok ((iterate_date_range s0 e0).map strftimeYyyymmdd))) = Except.ok []
  rw [except_bind_ok, except_bind_ok, h0]
  rfl

theorem C10_witness :
    iterate_date_range ⟨2023, 8, 1⟩ ⟨2023, 7, 1⟩ = []
    ∧ _make_list_of_date_prefixes
        (DateFilterValue.range (DateInput.date ⟨2023, 8, 1⟩)
          (DateInput.date ⟨2023, 7, 1⟩))
      = Except.ok [] :=
  C10_inverted_range_empty ⟨2023, 8, 1⟩ ⟨2023, 7, 1⟩ (by decide)

theorem from_str_short {code : List Char} (h : code.length ≤ 2) :
    FuturesTradingCode.from_str code = .error "Invalid code format." := by
  unfold FuturesTradingCode.from_str
  rw [if_pos h]

theorem letterToMonth_monthLetter {m : Nat} (h1 : 1 ≤ m) (h2 : m ≤ 12) :
    letterToMonth (monthLetter m) = some m := by
  interval_cases m <;> decide

/-- C7: `FuturesTradingCode.from_str` raises exactly for length ≤ 2, an
unrecognized month letter, or a non-digit year character; otherwise it
returns (product, month number, year digit), and decoding the code built
from a non-empty product, a month 1–12 and a year recovers
(product, month, year mod 10). -/
theorem C7_from_str_spec :
    (∀ code : List Char, code.length ≤ 2 →
        FuturesTradingCode.from_str code = .error "Invalid code format.")
    ∧ (∀ (p : List Char) (c d : Char), p ≠ [] → letterToMonth c = none →
        FuturesTradingCode.from_str (p ++ [c, d])
          = .error "is not a valid month code.")
    ∧ (∀ (p : List Char) (c d : Char) (m : Nat), p ≠ [] →
        letterToMonth c = some m → ¬ d.isDigit →
        FuturesTradingCode.from_str (p ++ [c, d])
          = .error "is not a valid year code.")
    ∧ (∀ (p : List Char) (c d : Char) (m : Nat), p ≠ [] →
        letterToMonth c = some m → d.isDigit →
        FuturesTradingCode.from_str (p ++ [c, d])
          = .ok ⟨p, m, d.toNat - 48⟩)
    ∧ (∀ (p : List Char) (m y : Nat), p ≠ [] → 1 ≤ m → m ≤ 12 →
        FuturesTradingCode.from_str (futures_trading_code p y m)
          = .ok ⟨p, m, y % 10⟩) := by
  have hok : ∀ (p : List Char) (c d : Char) (m : Nat), p ≠ [] →
      letterToMonth c = some m → d.isDigit →
      FuturesTradingCode.from_str (p ++ [c, d]) = .ok ⟨p, m, d.toNat - 48⟩ := by
    intro p c d m hp hc hd
    rw [from_str_append hp, hc]
    simp only [if_pos hd]
  refine ⟨fun _ h => from_str_short h, ?_, ?_, hok, ?_⟩
  · intro p c d hp hc
    rw [from_str_append hp, hc]
  · intro p c d m hp hc hd
    rw [from_str_append hp, hc]
    simp only [if_neg hd]
  · intro p m y hp h1 h2
    have hcode : futures_trading_code p y m
        = p ++ [monthLetter m, digitChar (y % 10)] := rfl
    rw [hcode, hok p (monthLetter m) (digitChar (y % 10)) m hp
      (letterToMonth_monthLetter h1 h2) (digitChar_isDigit (by omega))]
    have : (digitChar (y % 10)).toNat - 48 = y % 10 := by
      rw [digitChar_toNat (by omega)]
      omega
    rw [this]

theorem C7_witness :
    FuturesTradingCode.from_str ("AB".data) = .error "Invalid code format."
    ∧ FuturesTradingCode.from_str ("CLA5".data)
        = .error "is not a valid month code."
    ∧ FuturesTradingCode.from_str ("CLZx".data)
        = .error "is not a valid year code."
    ∧ FuturesTradingCode.from_str ("ABZ3".data) = .ok ⟨"AB".data, 12, 3⟩
    ∧ FuturesTradingCode.from_str (futures_trading_code "AB".data 2023 12)
        = .ok ⟨"AB".data, 12, 3⟩ := by
  refine ⟨C7_from_str_spec.1 "AB".data (by decide), ?_, ?_, ?_, ?_⟩
  · exact C7_from_str_spec.2.1 "CL".data 'A' '5' (by decide) (by decide)
  · exact C7_from_str_spec.2.2.1 "CL".data 'Z' 'x' 12 (by decide) (by decide)
      (by decide)
  · exact C7_from_str_spec.2.2.2.1 "AB".data 'Z' '3' 12 (by decide) (by decide)
      (by decide)
  · have h := C7_from_str_spec.2.2.2.2 "AB".data 12 2023 (by decide)
      (by decide) (by decide)
    rw [h]

theorem normalizeDateArg_single {v : DateInput} {d : Date}
    (hv : _normalize_date v = .ok d) :
    normalizeDateArg (DateFilterValue.single v) = .ok (d, d) := by
  show _normalize_date v >>= (fun d0 => Except.ok (d0, d0)) = Except.ok (d, d)
  rw [hv, except_bind_ok]

theorem normalizeDateArg_range {v1 v2 : DateInput} {d1 d2 : Date}
    (h1 : _normalize_date v1 = .ok d1) (h2 : _normalize_date v2 = .ok d2) :
    normalizeDateArg (DateFilterValue.range v1 v2) = .ok (d1, d2) := by
  show _normalize_date v1 >>= (fun s0 =>
      _normalize_date v2 >>= (fun e0 => Except.ok (s0, e0))) = Except.ok (d1, d2)
  rw [h1, except_bind_ok, h2, except_bind_ok]

/-- C6: the selection filter normalizes a single date value — string or
native date — to the degenerate inclusive range `start = end`, and fails
with a range error whenever `start > end`, for the date range and for the
expiration range alike. -/
theorem C6_selection_filter :
    (∀ (v : DateInput) (d : Date) (syms : SymbolsInput),
        _normalize_date v = .ok d →
        S3KeyFilter_make (DateFilterValue.single v) syms none
          = .ok ⟨d, d, _make_list_of_tickers syms, none⟩)
    ∧ (∀ (v1 v2 : DateInput) (d1 d2 : Date) (syms : SymbolsInput),
        _normalize_date v1 = .ok d1 → _normalize_date v2 = .ok d2 →
        dateLt d2 d1 →
        S3KeyFilter_make (DateFilterValue.range v1 v2) syms none
          = .error "Invalid date range.")
    ∧ (∀ (v0 v : DateInput) (d0 d : Date) (syms : SymbolsInput),
        _normalize_date v0 = .ok d0 → _normalize_date v = .ok d →
        S3KeyFilter_make (DateFilterValue.single v0) syms
            (some (DateFilterValue.single v))
          = .ok ⟨d0, d0, _make_list_of_tickers syms, some (d, d)⟩)
    ∧ (∀ (v0 v1 v2 : DateInput) (d0 d1 d2 : Date) (syms : SymbolsInput),
        _normalize_date v0 = .ok d0 → _normalize_date v1 = .ok d1 →
        _normalize_date v2 = .ok d2 → dateLt d2 d1 →
        S3KeyFilter_make (DateFilterValue.single v0) syms
            (some (DateFilterValue.range v1 v2))
          = .error "Invalid expiration date range.") := by
  refine ⟨?_, ?_, ?_, ?_⟩
  · intro v d syms hv
    unfold S3KeyFilter_make
    rw [normalizeDateArg_single hv, except_bind_ok]
    dsimp only
    rw [if_pos (dateLe_refl d)]
  · intro v1 v2 d1 d2 syms h1 h2 hlt
    unfold S3KeyFilter_make
    rw [normalizeDateArg_range h1 h2, except_bind_ok]
    dsimp only
    rw [if_neg (not_dateLe_of_dateLt hlt)]
  · intro v0 v d0 d syms h0 hv
    unfold S3KeyFilter_make
    rw [normalizeDateArg_single h0, except_bind_ok]
    dsimp only
    rw [if_pos (dateLe_refl d0), normalizeDateArg_single hv, except_bind_ok]
    dsimp only
    rw [if_pos (dateLe_refl d)]
  · intro v0 v1 v2 d0 d1 d2 syms h0 h1 h2 hlt
    unfold S3KeyFilter_make
    rw [normalizeDateArg_single h0, except_bind_ok]
    dsimp only
    rw [if_pos (dateLe_refl d0), normalizeDateArg_range h1 h2, except_bind_ok]
    dsimp only
    rw [if_neg (not_dateLe_of_dateLt hlt)]

theorem C6_witness :
    S3KeyFilter_make (DateFilterValue.single (DateInput.str "20230801"))
        (SymbolsInput.many ["ABC", "CDE"]) none
      = .ok ⟨⟨2023, 8, 1⟩, ⟨2023, 8, 1⟩,
          _make_list_of_tickers (SymbolsInput.many ["ABC", "CDE"]), none⟩
    ∧ S3KeyFilter_make
        (DateFilterValue.range (DateInput.date ⟨2023, 8, 1⟩)
          (DateInput.date ⟨2023, 7, 1⟩))
        (SymbolsInput.many ["ABC", "CDE"]) none
      = .error "Invalid date range."
    ∧ S3KeyFilter_make (DateFilterValue.single (DateInput.str "20230701"))
        (SymbolsInput.many ["ABC", "CDE"])
        (some (DateFilterValue.single (DateInput.str "20230801")))
      = .ok ⟨⟨2023, 7, 1⟩, ⟨2023, 7, 1⟩,
          _make_list_of_tickers (SymbolsInput.many ["ABC", "CDE"]),
          some (⟨2023, 8, 1⟩, ⟨2023, 8, 1⟩)⟩
    ∧ S3KeyFilter_make (DateFilterValue.single (DateInput.date ⟨2023, 7, 1⟩))
        (SymbolsInput.many ["ABC", "CDE"])
        (some (DateFilterValue.range (DateInput.date ⟨2023, 8, 1⟩)
          (DateInput.date ⟨2023, 7, 10⟩)))
      = .error "Invalid expiration date range." := by
  refine ⟨?_, ?_, ?_, ?_⟩
  · exact C6_selection_filter.1 (DateInput.str "20230801") ⟨2023, 8, 1⟩
      (SymbolsInput.many ["ABC", "CDE"]) (by decide)
  · exact C6_selection_filter.2.1 (DateInput.date ⟨2023, 8, 1⟩)
      (DateInput.date ⟨2023, 7, 1⟩) ⟨2023, 8, 1⟩ ⟨2023, 7, 1⟩
      (SymbolsInput.many ["ABC", "CDE"]) (by decide) (by decide) (by decide)
  · exact C6_selection_filter.2.2.1 (DateInput.str "20230701")
      (DateInput.str "20230801") ⟨2023, 7, 1⟩ ⟨2023, 8, 1⟩
      (SymbolsInput.many ["ABC", "CDE"]) (by decide) (by decide)
  · exact C6_selection_filter.2.2.2 (DateInput.date ⟨2023, 7, 1⟩)
      (DateInput.date ⟨2023, 8, 1⟩) (DateInput.date ⟨2023, 7, 10⟩)
      ⟨2023, 7, 1⟩ ⟨2023, 8, 1⟩ ⟨2023, 7, 10⟩
      (SymbolsInput.many ["ABC", "CDE"]) (by decide) (by decide) (by decide)
      (by decide)

theorem monthRange_same_year (y m1 m2 a b : Nat) (h1 : 1 ≤ m1) (h2 : m1 ≤ m2)
    (h3 : m2 ≤ 12) :
    monthRange ⟨y, m1, a⟩ ⟨y, m2, b⟩
      = (List.range (m2 - m1 + 1)).map (fun k => (y, m1 + k)) := by
  unfold monthRange
  dsimp only
  have hn : 12 * y + (m2 - 1) + 1 - (12 * y + (m1 - 1)) = m2 - m1 + 1 := by
    omega
  rw [hn]
  apply List.map_congr_left
  intro k hk
  rw [List.mem_range] at hk
  have e1 : (12 * y + (m1 - 1) + k) / 12 = y := by omega
  have e2 : (12 * y + (m1 - 1) + k) % 12 + 1 = m1 + k := by omega
  rw [e1, e2]

theorem monthRange_year_boundary (y a b : Nat) :
    monthRange ⟨y, 12, a⟩ ⟨y + 1, 1, b⟩ = [(y, 12), (y + 1, 1)] := by
  unfold monthRange
  dsimp only
  have hn : 12 * (y + 1) + (1 - 1) + 1 - (12 * y + (12 - 1)) = 2 := by omega
  rw [hn, show List.range 2 = [0, 1] from rfl]
  simp only [List.map_cons, List.map_nil, List.cons.injEq, Prod.mk.injEq,
    and_true]
  refine ⟨⟨?_, ?_⟩, ?_, ?_⟩ <;> omega

theorem monthLetter_inj12 : ∀ a : Nat, a < 13 → ∀ b : Nat, b < 13 →
    1 ≤ a → 1 ≤ b → monthLetter a = monthLetter b → a = b := by decide

theorem futures_trading_code_month_inj {t : List Char} {y1 y2 m1 m2 : Nat}
    (hm1 : 1 ≤ m1) (hm1b : m1 ≤ 12) (hm2 : 1 ≤ m2) (hm2b : m2 ≤ 12)
    (h : futures_trading_code t y1 m1 = futures_trading_code t y2 m2) :
    m1 = m2 := by
  unfold futures_trading_code at h
  have h2 := List.append_cancel_left h
  simp only [List.cons.injEq, and_true] at h2
  exact monthLetter_inj12 m1 (by omega) m2 (by omega) hm1 hm2 h2.1

/-- C2: the futures axis is enumerated once per calendar year-month touched
by the expiration range; a range of `m` consecutive months within one year
yields exactly `m` distinct trading codes per symbol, and across a year
boundary the codes' trailing year digits differ — in particular the
December 2023 / January 2024 range yields exactly `ABZ3` and `ABF4` for
symbol `AB`. -/
theorem C2_futures_axis :
    (∀ a b : Date, (monthRange a b).length
        = 12 * b.year + (b.month - 1) + 1 - (12 * a.year + (a.month - 1)))
    ∧ (∀ (sym : List Char) (y m1 m2 a b : Nat), 1 ≤ m1 → m1 ≤ m2 → m2 ≤ 12 →
        ((monthRange ⟨y, m1, a⟩ ⟨y, m2, b⟩).map
            (fun ym => futures_trading_code sym ym.1 ym.2)).length
          = m2 - m1 + 1
        ∧ ((monthRange ⟨y, m1, a⟩ ⟨y, m2, b⟩).map
            (fun ym => futures_trading_code sym ym.1 ym.2)).Nodup)
    ∧ (∀ (sym : List Char) (y a b : Nat),
        (monthRange ⟨y, 12, a⟩ ⟨y + 1, 1, b⟩).map
            (fun ym => futures_trading_code sym ym.1 ym.2)
          = [futures_trading_code sym y 12, futures_trading_code sym (y + 1) 1]
        ∧ (futures_trading_code sym y 12).getLast?
            = some (digitChar (y % 10))
        ∧ (futures_trading_code sym (y + 1) 1).getLast?
            = some (digitChar ((y + 1) % 10))
        ∧ digitChar (y % 10) ≠ digitChar ((y + 1) % 10))
    ∧ generate_object_keys ("yyyymmdd/ss/ssmy.csv.gz".data)
        ⟨⟨2023, 7, 29⟩, ⟨2023, 7, 29⟩, ["AB".data],
          some (⟨2023, 12, 1⟩, ⟨2024, 1, 1⟩)⟩
      = ["20230729/AB/ABZ3.csv.gz".data, "20230729/AB/ABF4.csv.gz".data] := by
  refine ⟨?_, ?_, ?_, by decide⟩
  · intro a b
    unfold monthRange
    simp [List.length_map, List.length_range]
  · intro sym y m1 m2 a b h1 h2 h3
    rw [monthRange_same_year y m1 m2 a b h1 h2 h3, List.map_map]
    constructor
    · simp [List.length_map, List.length_range]
    · refine List.Nodup.map_on ?_ (List.nodup_range _)
      intro k1 hk1 k2 hk2 heq
      rw [List.mem_range] at hk1 hk2
      simp only [Function.comp_apply] at heq
      have := futures_trading_code_month_inj (t := sym)
        (by omega) (by omega) (by omega) (by omega) heq
      omega
  · intro sym y a b
    refine ⟨?_, ?_, ?_, ?_⟩
    · rw [monthRange_year_boundary]
      rfl
    · show (sym ++ [monthLetter 12, digitChar (y % 10)]).getLast? = _
      rw [show sym ++ [monthLetter 12, digitChar (y % 10)]
        = (sym ++ [monthLetter 12]) ++ [digitChar (y % 10)] by simp]
      exact List.getLast?_concat _
    · show (sym ++ [monthLetter 1, digitChar ((y + 1) % 10)]).getLast? = _
      rw [show sym ++ [monthLetter 1, digitChar ((y + 1) % 10)]
        = (sym ++ [monthLetter 1]) ++ [digitChar ((y + 1) % 10)] by simp]
      exact List.getLast?_concat _
    · intro hcon
      have := digitChar_inj (by omega) (by omega) hcon
      omega

theorem C2_witness :
    (((monthRange ⟨2024, 3, 1⟩ ⟨2024, 4, 1⟩).map
        (fun ym => futures_trading_code "AB".data ym.1 ym.2)).length = 4 - 3 + 1
      ∧ ((monthRange ⟨2024, 3, 1⟩ ⟨2024, 4, 1⟩).map
          (fun ym => futures_trading_code "AB".data ym.1 ym.2)).Nodup)
    ∧ ((monthRange ⟨2023, 12, 1⟩ ⟨2023 + 1, 1, 1⟩).map
          (fun ym => futures_trading_code "AB".data ym.1 ym.2)
        = [futures_trading_code "AB".data 2023 12,
            futures_trading_code "AB".data (2023 + 1) 1]
      ∧ (futures_trading_code "AB".data 2023 12).getLast?
          = some (digitChar (2023 % 10))
      ∧ (futures_trading_code "AB".data (2023 + 1) 1).getLast?
          = some (digitChar ((2023 + 1) % 10))
      ∧ digitChar (2023 % 10) ≠ digitChar ((2023 + 1) % 10)) :=
  ⟨C2_futures_axis.2.1 "AB".data 2024 3 4 1 1 (by decide) (by decide)
      (by decide),
    C2_futures_axis.2.2.1 "AB".data 2023 1 1⟩

/-! Helpers for the literal-template claim. -/

theorem joinSep_ne_nil {sep : Char} {l : List (List Char)} (h1 : l ≠ [])
    (h2 : l ≠ [[]]) : joinSep sep l ≠ [] := by
  cases l with
  | nil => exact absurd rfl h1
  | cons x t =>
    cases t with
    | nil =>
      have hx : x ≠ [] := by
        intro hc
        exact h2 (by rw [hc])
      exact hx
    | cons y t2 => simp [joinSep]

theorem dropLast_append_getLastD {α : Type} :
    ∀ (l : List α) (d : α), l ≠ [] → l.dropLast ++ [l.getLastD d] = l := by
  intro l
  induction l with
  | nil => intro d h; exact absurd rfl h
  | cons x t ih =>
    intro d _
    cases t with
    | nil => rfl
    | cons y t2 =>
      have step := ih x (by simp)
      simp only [List.dropLast_cons₂, List.cons_append]
      rw [show (x :: y :: t2).getLastD d = (y :: t2).getLastD x from rfl]
      rw [step]

theorem map_placeholderSubst_id {l : List (List Char)}
    (h : ∀ p ∈ l, p ∉ PlaceHoldersALL) : l.map placeholderSubst = l := by
  have hsub : ∀ p ∈ l, placeholderSubst p = id p := by
    intro p hp
    unfold placeholderSubst
    rw [if_neg (h p hp)]
    rfl
  rw [List.map_congr_left hsub, List.map_id]

theorem filter_placeholders_nil {l : List (List Char)}
    (h : ∀ p ∈ l, p ∉ PlaceHoldersALL) :
    l.filter (fun x => decide (x ∈ PlaceHoldersALL)) = [] := by
  apply List.filter_eq_nil_iff.mpr
  intro p hp
  simp [h p hp]

/-- For a name whose dot-parts contain no placeholder, at least two of them
(three when the last is `zip`/`gz`), the name template reproduces the name
and no placeholder is collected. -/
theorem _make_name_template_literal {name : List Char}
    (h1 : ∀ p ∈ splitOnChar '.' name, p ∉ PlaceHoldersALL)
    (h2 : 2 ≤ (splitOnChar '.' name).length)
    (h3 : ((splitOnChar '.' name).getLastD [] = "zip".data ∨
        (splitOnChar '.' name).getLastD [] = "gz".data) →
      3 ≤ (splitOnChar '.' name).length) :
    _make_name_template name = (name, []) := by
  unfold _make_name_template
  dsimp only
  have hrt : joinSep '.' (splitOnChar '.' name) = name :=
    joinSep_splitOnChar '.' name
  by_cases hgz : (splitOnChar '.' name).getLastD [] = "zip".data ∨
      (splitOnChar '.' name).getLastD [] = "gz".data
  · have hlen3 := h3 hgz
    rw [if_pos hgz]
    dsimp only
    have htne : (splitOnChar '.' name).take
        ((splitOnChar '.' name).length - 2) ≠ [] := by
      intro hc
      have := congrArg List.length hc
      rw [List.length_take] at this
      simp only [List.length_nil] at this
      omega
    have hdne : (splitOnChar '.' name).drop
        ((splitOnChar '.' name).length - 2) ≠ [] := by
      intro hc
      have := congrArg List.length hc
      rw [List.length_drop] at this
      simp only [List.length_nil] at this
      omega
    simp only [Prod.mk.injEq]
    constructor
    · rw [map_placeholderSubst_id
        (fun p hp => h1 p (List.take_subset _ _ hp))]
      rw [← joinSep_append '.' htne hdne, List.take_append_drop, hrt]
    · exact filter_placeholders_nil
        (fun p hp => h1 p (List.take_subset _ _ hp))
  · rw [if_neg hgz]
    dsimp only
    have hdlne : (splitOnChar '.' name).dropLast ≠ [] := by
      intro hc
      have := congrArg List.length hc
      rw [List.length_dropLast] at this
      simp only [List.length_nil] at this
      omega
    simp only [Prod.mk.injEq]
    constructor
    · rw [map_placeholderSubst_id
        (fun p hp => h1 p (List.dropLast_subset _ hp))]
      have hsplit : joinSep '.'
          ((splitOnChar '.' name).dropLast ++ [(splitOnChar '.' name).getLastD []])
          = joinSep '.' ((splitOnChar '.' name).dropLast)
            ++ '.' :: joinSep '.' [(splitOnChar '.' name).getLastD []] :=
        joinSep_append '.' hdlne (by simp)
      rw [show joinSep '.' [(splitOnChar '.' name).getLastD []]
        = (splitOnChar '.' name).getLastD [] from rfl] at hsplit
      rw [← hsplit, dropLast_append_getLastD _ _
        (splitOnChar_ne_nil '.' name), hrt]
    · exact filter_placeholders_nil
        (fun p hp => h1 p (List.dropLast_subset _ hp))

/-- C3 counterexample: a placeholder-free path format whose name segment has
no dot is not passed through unchanged — `create_objects_path_template`
turns `"data"` into `".data"`, so the single generated key is not
character-for-character equal to the input. -/
theorem C3_counterexample :
    create_objects_path_template ("data".data) = (".data".data, [])
    ∧ ".data".data ≠ "data".data := by
  exact ⟨by decide, by decide⟩

/-- C3 (amended): for a path format none of whose segments is a recognized
placeholder name, whose final `/`-segment has at least two dot-parts (three
when it ends in `zip`/`gz`), and whose prefix part, when present, is not the
single empty segment, `create_objects_path_template` returns the input
unchanged with an empty placeholder list — unrecognized segments pass
through as literal text and never cause a failure. -/
theorem C3_literal_passthrough (path : List Char)
    (h1 : ∀ p ∈ (splitOnChar '/' path).dropLast, p ∉ PlaceHoldersALL)
    (h2 : ∀ p ∈ splitOnChar '.' ((splitOnChar '/' path).getLastD []),
      p ∉ PlaceHoldersALL)
    (h3 : 2 ≤ (splitOnChar '.' ((splitOnChar '/' path).getLastD [])).length)
    (h4 : ((splitOnChar '.' ((splitOnChar '/' path).getLastD [])).getLastD []
          = "zip".data ∨
        (splitOnChar '.' ((splitOnChar '/' path).getLastD [])).getLastD []
          = "gz".data) →
      3 ≤ (splitOnChar '.' ((splitOnChar '/' path).getLastD [])).length)
    (h5 : (splitOnChar '/' path).dropLast ≠ [[]]) :
    create_objects_path_template path = (path, []) := by
  unfold create_objects_path_template _split_object_path_into_prefixes
  dsimp only
  have hrt : joinSep '/' (splitOnChar '/' path) = path :=
    joinSep_splitOnChar '/' path
  by_cases hp : (splitOnChar '/' path).length > 1
  · rw [if_pos hp]
    dsimp only
    have hname := _make_name_template_literal h2 h3 h4
    rw [hname]
    unfold _make_prefix_template
    dsimp only
    have hdlne : (splitOnChar '/' path).dropLast ≠ [] := by
      intro hc
      have := congrArg List.length hc
      rw [List.length_dropLast] at this
      simp only [List.length_nil] at this
      omega
    rw [map_placeholderSubst_id h1, filter_placeholders_nil h1]
    have hjne : joinSep '/' ((splitOnChar '/' path).dropLast) ≠ [] :=
      joinSep_ne_nil hdlne h5
    rw [if_pos hjne]
    simp only [Prod.mk.injEq]
    constructor
    · have hsplit : joinSep '/'
          ((splitOnChar '/' path).dropLast ++ [(splitOnChar '/' path).getLastD []])
          = joinSep '/' ((splitOnChar '/' path).dropLast)
            ++ '/' :: joinSep '/' [(splitOnChar '/' path).getLastD []] :=
        joinSep_append '/' hdlne (by simp)
      rw [show joinSep '/' [(splitOnChar '/' path).getLastD []]
        = (splitOnChar '/' path).getLastD [] from rfl] at hsplit
      rw [← hsplit, dropLast_append_getLastD _ _
        (splitOnChar_ne_nil '/' path), hrt]
    · rfl
  · rw [if_neg hp]
    dsimp only
    obtain ⟨x, hx⟩ : ∃ x, splitOnChar '/' path = [x] := by
      rcases hsp : splitOnChar '/' path with _ | ⟨x, _ | ⟨y, t⟩⟩
      · exact absurd hsp (splitOnChar_ne_nil '/' path)
      · exact ⟨x, rfl⟩
      · rw [hsp] at hp
        simp at hp
    have hhead : (splitOnChar '/' path).headD [] = x := by rw [hx]; rfl
    have hlast : (splitOnChar '/' path).getLastD [] = x := by rw [hx]; rfl
    rw [hhead]
    rw [hlast] at h2 h3 h4
    have hname := _make_name_template_literal h2 h3 h4
    rw [hname]
    unfold _make_prefix_template
    dsimp only
    simp only [List.map_nil, List.filter_nil]
    rw [if_neg (fun hc => hc rfl :
      ¬ (joinSep '/' ([] : List (List Char)) ≠ []))]
    have hpath : path = x := by rw [← hrt, hx]; rfl
    rw [hpath]
    rfl

theorem C3_witness :
    create_objects_path_template ("my_data/file.csv".data)
      = ("my_data/file.csv".data, []) :=
  C3_literal_passthrough ("my_data/file.csv".data) (by decide) (by decide)
    (by decide) (by decide) (by decide)

/-! Helpers for the cross-product claim. -/

theorem year_le_of_dateLe {a b : Date} (h : dateLe a b) : a.year ≤ b.year := by
  unfold dateLe at h
  omega

theorem flatMap_singleton_map {α β : Type} (l : List α) (g : α → β) :
    (l.flatMap fun x => [g x]) = l.map g := by
  induction l with
  | nil => rfl
  | cons x t ih => simp only [List.flatMap_cons, List.map_cons, ih]; rfl

/-- On a date-and-symbol template, the generator is the cross product of the
date axis and the symbol axis. -/
theorem generate_object_keys_date_symbol {pf : List Char} {f : S3KeyFilterV}
    (hymd : Seg.ph PH.yyyymmdd ∈ (splitKeepSep pf).map parseSeg)
    (hsss : Seg.ph PH.sss ∈ (splitKeepSep pf).map parseSeg)
    (hax : ∀ p : PH, Seg.ph p ∈ (splitKeepSep pf).map parseSeg →
      axisOf p = Axis.date ∨ axisOf p = Axis.symbol) :
    generate_object_keys pf f
      = (iterate_date_range f.dateStart f.dateEnd).flatMap
          (fun d => f.symbols.map
            (fun sym => renderKey ((splitKeepSep pf).map parseSeg)
              (some d) (some sym) none)) := by
  have hmemph : ∀ p : PH,
      p ∈ ((splitKeepSep pf).map parseSeg).filterMap segPH ↔
        Seg.ph p ∈ (splitKeepSep pf).map parseSeg := by
    intro p
    constructor
    · intro hp
      obtain ⟨sg, hsg, hval⟩ := List.mem_filterMap.mp hp
      cases sg with
      | lit t => cases hval
      | ph q =>
        have : q = p := by
          simpa [segPH] using hval
        exact this ▸ hsg
    · intro hp
      exact List.mem_filterMap.mpr ⟨Seg.ph p, hp, rfl⟩
  have hdate : (((splitKeepSep pf).map parseSeg).filterMap segPH).any
      (fun p => decide (axisOf p = Axis.date)) = true :=
    List.any_eq_true.mpr ⟨PH.yyyymmdd, (hmemph PH.yyyymmdd).mpr hymd, by decide⟩
  have hsym : (((splitKeepSep pf).map parseSeg).filterMap segPH).any
      (fun p => decide (axisOf p = Axis.symbol)) = true :=
    List.any_eq_true.mpr ⟨PH.sss, (hmemph PH.sss).mpr hsss, by decide⟩
  have hfut : (((splitKeepSep pf).map parseSeg).filterMap segPH).any
      (fun p => decide (axisOf p = Axis.futures)) = false := by
    apply List.any_eq_false.mpr
    intro p hp
    rcases hax p ((hmemph p).mp hp) with h | h <;> simp [h]
  unfold generate_object_keys
  dsimp only
  rw [hdate, hsym, hfut]
  simp only [if_true, Bool.false_eq_true, if_false]
  rw [List.flatMap_map]
  refine congrArg _ (funext fun d => ?_)
  simp only [List.map_cons, List.map_nil]
  rw [List.flatMap_map]
  exact flatMap_singleton_map _ _

/-- C1 counterexample: a template whose only symbol placeholder is the
first-letter one collapses two distinct symbols with the same first letter
into one key — n×d distinct keys is not reached for every date-and-symbol
template. -/
theorem C1_counterexample :
    generate_object_keys ("yyyymmdd/s.csv".data)
        ⟨⟨2023, 7, 3⟩, ⟨2023, 7, 3⟩, ["AB".data, "AC".data], none⟩
      = ["20230703/A.csv".data, "20230703/A.csv".data]
    ∧ ("AB".data ≠ "AC".data)
    ∧ ¬ (generate_object_keys ("yyyymmdd/s.csv".data)
        ⟨⟨2023, 7, 3⟩, ⟨2023, 7, 3⟩, ["AB".data, "AC".data], none⟩).Nodup := by
  exact ⟨by decide, by decide, by decide⟩

/-- C1 (amended): for a selection with pairwise-distinct non-empty symbols
and a valid inclusive date range (4-digit years), and a template whose
placeholders all belong to the date/symbol axes with both the full-date and
the full-symbol placeholders present, key generation yields exactly
`d × n` pairwise-distinct keys — and the `AAPL` single-day scenario yields
exactly its one key. -/
theorem C1_cross_product :
    (∀ (pf : List Char) (f : S3KeyFilterV),
      Seg.ph PH.yyyymmdd ∈ (splitKeepSep pf).map parseSeg →
      Seg.ph PH.sss ∈ (splitKeepSep pf).map parseSeg →
      (∀ p : PH, Seg.ph p ∈ (splitKeepSep pf).map parseSeg →
        axisOf p = Axis.date ∨ axisOf p = Axis.symbol) →
      f.symbols.Nodup →
      (∀ sym ∈ f.symbols, sym ≠ []) →
      Valid f.dateStart → Valid f.dateEnd → dateLe f.dateStart f.dateEnd →
      1000 ≤ f.dateStart.year →
      (generate_object_keys pf f).length
          = (toOrdinal f.dateEnd + 1 - toOrdinal f.dateStart)
            * f.symbols.length
      ∧ (generate_object_keys pf f).Nodup)
    ∧ generate_object_keys ("yyyymmdd/s/sss.csv.gz".data)
        ⟨⟨2023, 7, 3⟩, ⟨2023, 7, 3⟩, ["AAPL".data], none⟩
      = ["20230703/A/AAPL.csv.gz".data] := by
  refine ⟨?_, by decide⟩
  intro pf f hymd hsss hax hnd hne hvs hve hle hy
  obtain ⟨hmap, hval⟩ := iterate_date_range_spec hvs hve
  have hgen := generate_object_keys_date_symbol (f := f) hymd hsss hax
  have hdlen : (iterate_date_range f.dateStart f.dateEnd).length
      = toOrdinal f.dateEnd + 1 - toOrdinal f.dateStart := by
    have := congrArg List.length hmap
    rwa [List.length_map, List.length_range'] at this
  have hyearmem : ∀ d ∈ iterate_date_range f.dateStart f.dateEnd,
      1000 ≤ d.year := by
    intro d hd
    have hmem : toOrdinal d ∈ List.range' (toOrdinal f.dateStart)
        (toOrdinal f.dateEnd + 1 - toOrdinal f.dateStart) := by
      rw [← hmap]
      exact List.mem_map_of_mem toOrdinal hd
    obtain ⟨i, _, hei⟩ := List.mem_range'.mp hmem
    have hord : toOrdinal f.dateStart ≤ toOrdinal d := by omega
    have hled : dateLe f.dateStart d :=
      dateLe_of_toOrdinal_le hvs (hval d hd) hord
    have := year_le_of_dateLe hled
    omega
  constructor
  · rw [hgen, length_flatMap_prod, hdlen]
  · rw [hgen]
    have hdnd : (iterate_date_range f.dateStart f.dateEnd).Nodup := by
      apply List.Nodup.of_map toOrdinal
      rw [hmap]
      exact List.nodup_range' _ _
    refine nodup_flatMap_prod hdnd hnd ?_
    intro d1 hd1 s1 hs1 d2 hd2 s2 hs2 heq
    exact renderKey_inj hymd hsss hax (hval d1 hd1) (hval d2 hd2)
      (hyearmem d1 hd1) (hyearmem d2 hd2) (hne s1 hs1) (hne s2 hs2) heq

theorem C1_witness :
    (generate_object_keys ("yyyymmdd/s/sss.csv.gz".data)
        (⟨⟨2023, 7, 3⟩, ⟨2023, 7, 4⟩, ["ABC".data, "DEF".data], none⟩
          : S3KeyFilterV)).length
      = (toOrdinal (⟨⟨2023, 7, 3⟩, ⟨2023, 7, 4⟩, ["ABC".data, "DEF".data],
            none⟩ : S3KeyFilterV).dateEnd + 1
          - toOrdinal (⟨⟨2023, 7, 3⟩, ⟨2023, 7, 4⟩, ["ABC".data, "DEF".data],
            none⟩ : S3KeyFilterV).dateStart)
        * (⟨⟨2023, 7, 3⟩, ⟨2023, 7, 4⟩, ["ABC".data, "DEF".data], none⟩
          : S3KeyFilterV).symbols.length
    ∧ (generate_object_keys ("yyyymmdd/s/sss.csv.gz".data)
        (⟨⟨2023, 7, 3⟩, ⟨2023, 7, 4⟩, ["ABC".data, "DEF".data], none⟩
          : S3KeyFilterV)).Nodup :=
  C1_cross_product.1 ("yyyymmdd/s/sss.csv.gz".data)
    (⟨⟨2023, 7, 3⟩, ⟨2023, 7, 4⟩, ["ABC".data, "DEF".data], none⟩
      : S3KeyFilterV)
    (by decide) (by decide) (by decide) (by decide) (by decide)
    (by decide) (by decide) (by decide) (by decide)

end AlgoseekConnector
